import Mathlib

/-!
Verification of the RSS scraper pipeline of this repository.

The pipeline source is the Python program `scraper/main.py` (given in full in
`INITIAL.md`): `resolve_url`, `clean_url`, `add_affiliate`, `process_link`,
`scrape_feed` and `main`, built on `urllib.parse` (`urlparse` / `urlunparse` /
`parse_qs` / `urlencode`).  URLs are modelled as `List Char` (Python `str`);
`urllib.parse` is embedded faithfully at the level the pipeline uses it:
scheme / netloc / query / fragment splitting including the `ValueError` raised
on a bracket-unbalanced authority, `parse_qs` with blank values dropped and
duplicate keys grouped, `urlencode(..., doseq=True)` re-joining the groups.
Percent-encoding (`quote_plus` / `unquote`) is modelled as the identity, which
is exact on the character sets exercised here.  Network I/O (`httpx`,
`feedparser`, `BeautifulSoup`) is modelled by explicit oracle functions.

The frontend data hook `frontend/src/utils/useDeals.ts`
(`validateAndTransformDeal`) is embedded over a small JavaScript value model.
-/

/-! ## ASCII character helpers (CPython `urllib.parse` character classes) -/

/-- Lower-casing of one character, as Python `str.lower` acts on ASCII. -/
def lowerChar (c : Char) : Char :=
  if 65 ≤ c.toNat ∧ c.toNat ≤ 90 then Char.ofNat (c.toNat + 32) else c

/-- ASCII letter test (`url[0].isascii() and url[0].isalpha()` in `urlsplit`). -/
def isAsciiAlpha (c : Char) : Bool :=
  (65 ≤ c.toNat && c.toNat ≤ 90) || (97 ≤ c.toNat && c.toNat ≤ 122)

/-- Characters allowed in a URL scheme (`scheme_chars` in CPython). -/
def isSchemeChar (c : Char) : Bool :=
  isAsciiAlpha c || (48 ≤ c.toNat && c.toNat ≤ 57) || c = '+' || c = '-' || c = '.'

/-! ## List-of-characters helpers -/

/-- Boolean prefix test on character lists. -/
def isPrefixL : List Char → List Char → Bool
  | [], _ => true
  | _ :: _, [] => false
  | p :: ps, c :: cs => p = c && isPrefixL ps cs

/-- Python's substring operator `pat in s`. -/
def containsSub (pat : List Char) : List Char → Bool
  | [] => pat.isEmpty
  | c :: rest => isPrefixL pat (c :: rest) || containsSub pat rest

/-- Split at the first occurrence of `t` (Python `s.split(t, 1)` when `t`
occurs); `none` when `t` does not occur. -/
def splitOnFirst (t : Char) : List Char → Option (List Char × List Char)
  | [] => none
  | c :: cs =>
    if c = t then some ([], cs)
    else
      match splitOnFirst t cs with
      | none => none
      | some (a, b) => some (c :: a, b)

/-- Split at the first occurrence of `t`, keeping everything when `t` does not
occur (the `url, query = url.split('?', 1)` idiom guarded by `'?' in url`). -/
def splitAtFirst (t : Char) (l : List Char) : List Char × List Char :=
  match splitOnFirst t l with
  | some (a, b) => (a, b)
  | none => (l, [])

/-- Split at every occurrence of `t` (Python `s.split(t)`). -/
def splitOnAll (t : Char) : List Char → List (List Char)
  | [] => [[]]
  | c :: cs =>
    if c = t then [] :: splitOnAll t cs
    else
      match splitOnAll t cs with
      | [] => [[c]]
      | h :: tl => (c :: h) :: tl

/-! ## `urllib.parse.urlsplit` / `urlunsplit` -/

/-- The components `urlsplit` produces.  CPython's `params` component is left
inside `path`; `urlparse` splits it off and `urlunparse` re-joins it
unchanged, so the strings produced are identical. -/
structure UrlParts where
  scheme : List Char
  netloc : List Char
  path : List Char
  query : List Char
  fragment : List Char
deriving DecidableEq

/-- Validity of a candidate scheme: nonempty, leading ASCII letter, all
characters in `scheme_chars`. -/
def schemeValidPre (pre : List Char) : Bool :=
  match pre with
  | [] => false
  | c :: _ => isAsciiAlpha c && pre.all isSchemeChar

/-- Scheme extraction step of `urlsplit`: split at the first `':'`, accept the
prefix when it is a valid scheme (then lower-cased), otherwise leave the URL
untouched. -/
def splitScheme (u : List Char) : List Char × List Char :=
  match splitOnFirst ':' u with
  | some (pre, post) =>
    if schemeValidPre pre then (pre.map lowerChar, post) else ([], u)
  | none => ([], u)

/-- Characters that do not terminate the netloc (`_splitnetloc` scans up to
the first of `'/'`, `'?'`, `'#'`). -/
def isNetlocChar (c : Char) : Bool :=
  !(c = '/' || c = '?' || c = '#')

/-- Netloc extraction step of `urlsplit`: only when the remaining URL starts
with `//`; raises (`none`) on a bracket-unbalanced authority, which is
CPython's `ValueError: Invalid IPv6 URL`. -/
def splitNetloc : List Char → Option (List Char × List Char)
  | '/' :: '/' :: r2 =>
    if ((r2.takeWhile isNetlocChar).contains '[') = ((r2.takeWhile isNetlocChar).contains ']')
    then some (r2.takeWhile isNetlocChar, r2.dropWhile isNetlocChar)
    else none
  | r => some ([], r)

/-- The sanitation `urlsplit` applies first (CPython 3.11): strip leading C0
control characters and spaces, then delete every tab, carriage return and
newline. -/
def preprocessUrl (u : List Char) : List Char :=
  (u.dropWhile fun c => c.toNat ≤ 32).filter fun c =>
    !(c.toNat = 9 || c.toNat = 10 || c.toNat = 13)

/-- CPython 3.11 `urlsplit`: sanitize, then scheme, netloc, fragment, query —
in that order.  `Except.error` models the uncaught `ValueError` raised on a
bracket-unbalanced authority.  (The additional `_check_bracketed_host` and
`_checknetloc` validations, which reject only bracketed non-IPv6 hosts and
non-ASCII authorities, are not modelled; no URL handled here has either.) -/
def urlsplit (u : List Char) : Except Unit UrlParts :=
  let sp := splitScheme (preprocessUrl u)
  match splitNetloc sp.2 with
  | none => .error ()
  | some (netloc, r2) =>
    let fq := splitAtFirst '#' r2
    let pq := splitAtFirst '?' fq.1
    .ok ⟨sp.1, netloc, pq.1, pq.2, fq.2⟩

/-- CPython's `uses_netloc` scheme list. -/
def uses_netloc : List (List Char) :=
  ["".data, "ftp".data, "http".data, "gopher".data, "nntp".data, "telnet".data,
   "imap".data, "wais".data, "file".data, "mms".data, "https".data, "shttp".data,
   "snews".data, "prospero".data, "rtsp".data, "rtsps".data, "rtspu".data,
   "rsync".data, "svn".data, "svn+ssh".data, "sftp".data, "nfs".data, "git".data,
   "git+ssh".data, "ws".data, "wss".data]

/-- CPython 3.11 `urlunsplit`. -/
def urlunsplit (p : UrlParts) : List Char :=
  let url := p.path
  let url :=
    if p.netloc ≠ [] ∨ (p.scheme ≠ [] ∧ p.scheme ∈ uses_netloc ∧ url.take 2 ≠ ['/', '/']) then
      '/' :: '/' :: (p.netloc ++ (if url ≠ [] ∧ url.head? ≠ some '/' then '/' :: url else url))
    else url
  let url := if p.scheme ≠ [] then p.scheme ++ ':' :: url else url
  let url := if p.query ≠ [] then url ++ '?' :: p.query else url
  if p.fragment ≠ [] then url ++ '#' :: p.fragment else url

/-! ## `parse_qs` / `urlencode(..., doseq=True)` -/

/-- CPython `parse_qsl` with default `keep_blank_values=False`: split on
`'&'`, drop segments without `'='` and segments with an empty value;
`unquote` is modelled as the identity. -/
def parse_qsl (qs : List Char) : List (List Char × List Char) :=
  (splitOnAll '&' qs).filterMap fun pair =>
    match splitOnFirst '=' pair with
    | none => none
    | some (n, v) => if v = [] then none else some (n, v)

/-- Append one value under a key into the insertion-ordered grouping that a
Python `dict` of lists maintains. -/
def groupInsert (k v : List Char) :
    List (List Char × List (List Char)) → List (List Char × List (List Char))
  | [] => [(k, [v])]
  | (k', vs) :: rest =>
    if k' = k then (k', vs ++ [v]) :: rest else (k', vs) :: groupInsert k v rest

/-- CPython `parse_qs`: group `parse_qsl` pairs by key, preserving the order
of first occurrence. -/
def parse_qs (qs : List Char) : List (List Char × List (List Char)) :=
  (parse_qsl qs).foldl (fun acc kv => groupInsert kv.1 kv.2 acc) []

/-- Join with `'&'` (the final step of `urlencode`). -/
def joinAmp : List (List Char) → List Char
  | [] => []
  | [x] => x
  | x :: xs => x ++ '&' :: joinAmp xs

/-- CPython `urlencode(query, doseq=True)` on a grouped query, with
`quote_plus` modelled as the identity. -/
def urlencode (g : List (List Char × List (List Char))) : List Char :=
  joinAmp (List.flatten (g.map fun kv => kv.2.map fun v => kv.1 ++ '=' :: v))

/-! ## The scraper's URL functions (`scraper/main.py`) -/

/-- The fixed list popped by `clean_url`:
`for bad in ["tag","affid","ref","utm_source","utm_medium","utm_campaign"]`. -/
def bad_keys : List (List Char) :=
  ["tag".data, "affid".data, "ref".data, "utm_source".data,
   "utm_medium".data, "utm_campaign".data]

/-- The grouped query after `clean_url`'s `query.pop(bad, None)` loop. -/
def cleanQuery (qs : List Char) : List (List Char × List (List Char)) :=
  (parse_qs qs).filter fun kv => !(bad_keys.contains kv.1)

/-- `clean_url` from `scraper/main.py`: parse, pop the tracking keys,
re-encode, un-parse.  The error is the uncaught `ValueError` of `urlparse`. -/
def clean_url (u : List Char) : Except Unit (List Char) :=
  match urlsplit u with
  | .error e => .error e
  | .ok p => .ok (urlunsplit { p with query := urlencode (cleanQuery p.query) })

/-- First affiliate rule whose domain is a substring of the URL
(`for domain, tag in AFFILIATE_TAGS.items(): if domain in url`). -/
def findTag (tags : List (List Char × List Char)) (u : List Char) :
    Option (List Char × List Char) :=
  tags.find? fun dt => containsSub dt.1 u

/-- `add_affiliate` from `scraper/main.py`.  `tags` is the `AFFILIATE_TAGS`
mapping in its insertion order. -/
def add_affiliate (tags : List (List Char × List Char)) (u : List Char) :
    Except Unit (List Char) :=
  match findTag tags u with
  | some dt =>
    match clean_url u with
    | .error e => .error e
    | .ok base =>
      let sep : Char := if containsSub ['?'] base then '&' else '?'
      .ok (base ++ sep :: ("tag=".data ++ dt.2))
  | none => clean_url u

/-! ## Redirect resolution and link processing -/

/-- One call of `resolve_url`: the HTTP request `client.get(url)` is issued
unconditionally (there is no cache lookup in the source); the second
component records the request.  `net url = some r` models the redirect chain
resolving to `r`; `none` models any raised network error, in which case the
bare `except` returns the original URL. -/
def resolve_url_requests (net : List Char → Option (List Char)) (u : List Char) :
    List Char × List (List Char) :=
  ((net u).getD u, [u])

/-- The value `resolve_url` returns. -/
def resolve_url (net : List Char → Option (List Char)) (u : List Char) : List Char :=
  (resolve_url_requests net u).1

/-- All HTTP requests issued while resolving a list of extracted links, one
`resolve_url` call per link as in `scrape_feed`'s loop. -/
def resolveRequestLog (net : List Char → Option (List Char)) :
    List (List Char) → List (List Char)
  | [] => []
  | u :: us => (resolve_url_requests net u).2 ++ resolveRequestLog net us

/-! ## Pydantic `HttpUrl` validation

`ProcessedLink` and `FeedItem` (`scraper/models.py`) declare their URL
fields as pydantic `HttpUrl`: constructing a model validates each such
field and raises `ValidationError` on a value that is not a well-formed
absolute http(s) URL (a relative URL such as `other.com/p`, a bare path
`/foo`, a non-http scheme).  `http_url_ok` under-approximates the set
pydantic accepts and stores verbatim: a lowercase `http://` or
`https://` prefix, length at most 2083, only characters URL
normalization keeps untouched, no `/.` (dot path segments), a plain
lowercase dotted ASCII host whose final label is an alphabetic TLD, and
a nonempty path.  Pydantic accepts more (ports, userinfo, IDNA hosts,
fragments, inputs it normalizes), so the embedding draws success
conclusions only behind `http_url_ok` hypotheses, and error conclusions
only from code paths reached before model construction. -/

/-- Lowercase ASCII letter or digit. -/
def isLowerDigit (c : Char) : Bool :=
  (97 ≤ c.toNat && c.toNat ≤ 122) || (48 ≤ c.toNat && c.toNat ≤ 57)

/-- Character allowed inside a host label. -/
def isHostLabelChar (c : Char) : Bool :=
  isLowerDigit c || c = '-'

/-- One dot-separated host label: nonempty, over `[a-z0-9-]`, and
alphanumeric at both ends. -/
def hostLabelOk (l : List Char) : Bool :=
  !l.isEmpty && l.all isHostLabelChar &&
  (match l.head? with | some c => isLowerDigit c | none => false) &&
  (match l.getLast? with | some c => isLowerDigit c | none => false)

/-- Final host label: an alphabetic TLD of at least two letters. -/
def isTld (l : List Char) : Bool :=
  2 ≤ l.length && l.all (fun c => 97 ≤ c.toNat && c.toNat ≤ 122)

/-- Dotted-host shape: at least two well-formed labels ending in a TLD. -/
def hostOk (netloc : List Char) : Bool :=
  2 ≤ (splitOnAll '.' netloc).length &&
  (splitOnAll '.' netloc).all hostLabelOk &&
  (match (splitOnAll '.' netloc).getLast? with | some l => isTld l | none => false)

/-- URL characters pydantic keeps verbatim. -/
def isUrlChar (c : Char) : Bool :=
  isAsciiAlpha c || (48 ≤ c.toNat && c.toNat ≤ 57) ||
  c = '-' || c = '.' || c = '_' || c = '~' || c = ':' || c = '/' || c = '?' ||
  c = '=' || c = '&' || c = '+' || c = '%' || c = ','

/-- The under-approximation of pydantic `HttpUrl` acceptance. -/
def http_url_ok (u : List Char) : Bool :=
  (isPrefixL "http://".data u || isPrefixL "https://".data u) &&
  u.length ≤ 2083 && u.all isUrlChar && !(containsSub "/.".data u) &&
  (match urlsplit u with
   | .error _ => false
   | .ok p => hostOk p.netloc && !p.path.isEmpty)

/-- `ProcessedLink` from `scraper/models.py` (`INITIAL.md`): four fields,
the three URL fields typed `HttpUrl`; there is no `network` field in the
pipeline's model. -/
structure ProcessedLink where
  original : List Char
  resolved : List Char
  final : List Char
  is_affiliate : Bool
deriving DecidableEq

/-- `ProcessedLink(original=..., resolved=..., final=..., is_affiliate=...)`:
pydantic validates the three `HttpUrl` fields on construction and raises
`ValidationError` when one fails. -/
def mkProcessedLink (original resolved final : List Char) (aff : Bool) :
    Except Unit ProcessedLink :=
  if http_url_ok original && http_url_ok resolved && http_url_ok final then
    .ok ⟨original, resolved, final, aff⟩
  else .error ()

/-- `process_link` from `scraper/main.py`: both return paths construct a
pydantic `ProcessedLink`, which validates the URL fields. -/
def process_link (tags : List (List Char × List Char))
    (net : List Char → Option (List Char))
    (rss_domain original_url : List Char) : Except Unit ProcessedLink :=
  let resolved := resolve_url net original_url
  if containsSub rss_domain resolved then
    mkProcessedLink original_url resolved resolved false
  else
    match add_affiliate tags resolved with
    | .error e => .error e
    | .ok final => mkProcessedLink original_url resolved final (final != resolved)

/-! ## Feed scraping and the run -/

/-- One parsed feed entry (`rss.entries` element: `entry.title`,
`entry.link`). -/
structure FeedEntry where
  title : List Char
  link : List Char
deriving DecidableEq

/-- `FeedItem` from `scraper/models.py` (`INITIAL.md`); `link` is a
pydantic `HttpUrl` field, validated on construction. -/
structure FeedItem where
  title : List Char
  link : List Char
  processed_links : List ProcessedLink
deriving DecidableEq

/-- Effectful map over `Except`, stopping at the first error — the behaviour
of a Python `for` loop that lets an exception escape. -/
def mapME (f : α → Except Unit β) : List α → Except Unit (List β)
  | [] => .ok []
  | x :: xs =>
    match f x with
    | .error e => .error e
    | .ok y =>
      match mapME f xs with
      | .error e => .error e
      | .ok ys => .ok (y :: ys)

/-- `scrape_feed` from `scraper/main.py`.  `entriesOf` models
`feedparser.parse(feed_url).entries` (feedparser catches fetch and parse
errors itself and yields an empty entry list, never raising).  `anchorsOf`
models `fetch_content` + BeautifulSoup: the `href` values of the anchors
found in the content fetched for an entry link (an empty list when the fetch
failed or the body had no anchors). -/
def scrape_feed (tags : List (List Char × List Char))
    (net : List Char → Option (List Char))
    (anchorsOf : List Char → List (List Char))
    (entriesOf : List Char → List FeedEntry)
    (feed_url : List Char) : Except Unit (List FeedItem) :=
  match urlsplit feed_url with
  | .error e => .error e
  | .ok p =>
    mapME
      (fun e =>
        match mapME (fun href => process_link tags net p.netloc href) (anchorsOf e.link) with
        | .error er => .error er
        | .ok links =>
          if http_url_ok e.link then .ok ⟨e.title, e.link, links⟩ else .error ())
      (entriesOf feed_url)

/-- Python whitespace test for `str.strip`. -/
def isPySpace (c : Char) : Bool :=
  c.toNat = 9 || c.toNat = 10 || c.toNat = 11 || c.toNat = 12 || c.toNat = 13 || c.toNat = 32

/-- Python `str.strip()`. -/
def pyStrip (s : List Char) : List Char :=
  (((s.dropWhile isPySpace).reverse).dropWhile isPySpace).reverse

/-- The item-collection comprehension of `main`:
`[item for feed in FEED_SOURCES if feed.strip() for item in scrape_feed(feed.strip())]`. -/
def run_scraper (tags : List (List Char × List Char))
    (net : List Char → Option (List Char))
    (anchorsOf : List Char → List (List Char))
    (entriesOf : List Char → List FeedEntry) :
    List (List Char) → Except Unit (List FeedItem)
  | [] => .ok []
  | src :: rest =>
    if pyStrip src = [] then run_scraper tags net anchorsOf entriesOf rest
    else
      match scrape_feed tags net anchorsOf entriesOf (pyStrip src) with
      | .error e => .error e
      | .ok items =>
        match run_scraper tags net anchorsOf entriesOf rest with
        | .error e => .error e
        | .ok more => .ok (items ++ more)

/-! ## Snapshot write (`main`'s output step)

`main` ends with `with open(OUTPUT_FILE, "w") as f: json.dump(all_items, f, indent=2)`.
`open(..., "w")` truncates the existing file immediately; `json.dump` then
streams the serialized items into it.  The observable sequence of file
contents during a successful run is therefore: the previous snapshot, the
empty truncated file, the new snapshot (with further partial prefixes between
the last two that the model does not need to refute atomicity); a run that
fails between truncation and the final flush leaves the intermediate state
behind. -/

/-- Observable file contents of the snapshot during `main`'s write. -/
def snapshotWriteStates (oldContent newContent : String) : List String :=
  [oldContent, "", newContent]

/-- An atomic replacement would expose only the old or the new snapshot. -/
def atomicReplace (oldContent newContent : String) : Prop :=
  ∀ s ∈ snapshotWriteStates oldContent newContent, s = oldContent ∨ s = newContent

/-! ## Frontend data hook (`frontend/src/utils/useDeals.ts`)

`validateAndTransformDeal` runs over parsed JSON values.  JavaScript values
are modelled by `JSValue`; property access on an object that lacks the key
yields `undefined`, as does property access on an array.  The code reaches a
property access only behind `typeof data === 'object'` plus a truthiness
check, so accesses never throw; every other operation used (`typeof`,
`Array.isArray`, `trim`, `filter`, `map`) is total, and the surrounding
`try/catch` is therefore never exercised on this fragment. -/

inductive JSValue where
  | null
  | undefVal
  | bool (b : Bool)
  | num (n : Int)
  | str (s : String)
  | arr (elems : List JSValue)
  | obj (fields : List (String × JSValue))

/-- JavaScript truthiness (`NaN` is not representable in the `Int` model). -/
def truthy : JSValue → Bool
  | .null => false
  | .undefVal => false
  | .bool b => b
  | .num n => !(n == 0)
  | .str s => !(s == "")
  | .arr _ => true
  | .obj _ => true

/-- The test `typeof v === 'object'` (true for `null`, arrays and objects). -/
def typeofObject : JSValue → Bool
  | .null => true
  | .arr _ => true
  | .obj _ => true
  | _ => false

/-- The test `typeof v === 'string'`. -/
def typeofString : JSValue → Bool
  | .str _ => true
  | _ => false

/-- The test `typeof v === 'boolean'`. -/
def typeofBoolean : JSValue → Bool
  | .bool _ => true
  | _ => false

/-- The test `Array.isArray(v)`. -/
def isArrayJS : JSValue → Bool
  | .arr _ => true
  | _ => false

/-- JavaScript property access `v[k]` for the object-typed values the code
guards for; `undefined` when the key is absent. -/
def getField : JSValue → String → JSValue
  | .obj fields, k =>
    match fields.find? fun f => f.1 == k with
    | some f => f.2
    | none => .undefVal
  | _, _ => .undefVal

/-- String payload of a `JSValue` known to be a string. -/
def strVal : JSValue → String
  | .str s => s
  | _ => ""

/-- Boolean payload of a `JSValue` known to be a boolean. -/
def boolVal : JSValue → Bool
  | .bool b => b
  | _ => false

/-- JavaScript whitespace for `String.prototype.trim` (the ASCII part; the
feed data contains no exotic Unicode spaces). -/
def isJsSpace (c : Char) : Bool :=
  c.toNat = 9 || c.toNat = 10 || c.toNat = 11 || c.toNat = 12 || c.toNat = 13 || c.toNat = 32

/-- JavaScript `s.trim()`. -/
def jsTrim (s : String) : String :=
  String.mk ((((s.data.dropWhile isJsSpace).reverse).dropWhile isJsSpace).reverse)

/-- The `ProcessedLink` interface of the frontend (`types.ts`): five fields,
including `network`. -/
structure ProcessedLinkJS where
  original : String
  resolved : String
  final : String
  is_affiliate : Bool
  network : String
deriving DecidableEq

/-- The `FeedItem` shape `validateAndTransformDeal` returns. -/
structure FeedItemJS where
  title : String
  link : String
  published : JSValue
  summary : String
  processed_links : List ProcessedLinkJS

/-- Object keys used by `validateAndTransformDeal`. -/
def kTitle : String := "title"

/-- Key of the item link. -/
def kLink : String := "link"

/-- Key of the publication timestamp. -/
def kPublished : String := "published"

/-- Key of the summary. -/
def kSummary : String := "summary"

/-- Key of the processed links array. -/
def kProcessedLinks : String := "processed_links"

/-- Key of a link's original URL. -/
def kOriginal : String := "original"

/-- Key of a link's resolved URL. -/
def kResolved : String := "resolved"

/-- Key of a link's final URL. -/
def kFinal : String := "final"

/-- Key of a link's affiliate flag. -/
def kIsAffiliate : String := "is_affiliate"

/-- Key of a link's network name. -/
def kNetwork : String := "network"

/-- The per-link filter and map inside `validateAndTransformDeal`: keep a
link only when it is a truthy object whose five fields have the declared
types, then copy exactly those five fields. -/
def validLinkJS (v : JSValue) : Option ProcessedLinkJS :=
  if truthy v && typeofObject v &&
      typeofString (getField v kOriginal) &&
      typeofString (getField v kResolved) &&
      typeofString (getField v kFinal) &&
      typeofBoolean (getField v kIsAffiliate) &&
      typeofString (getField v kNetwork) then
    some ⟨strVal (getField v kOriginal), strVal (getField v kResolved),
          strVal (getField v kFinal), boolVal (getField v kIsAffiliate),
          strVal (getField v kNetwork)⟩
  else none

/-- `validateAndTransformDeal` from `useDeals.ts`. -/
def validateAndTransformDeal (data : JSValue) : Option FeedItemJS :=
  if !truthy data || !typeofObject data then none
  else
    let title := getField data kTitle
    let link := getField data kLink
    if !truthy title || !typeofString title || jsTrim (strVal title) = "" then none
    else if !truthy link || !typeofString link then none
    else
      let published := getField data kPublished
      let summary := getField data kSummary
      let pls := getField data kProcessedLinks
      some
        { title := jsTrim (strVal title)
          link := strVal link
          published := if truthy published then published else .null
          summary := if truthy summary && typeofString summary then jsTrim (strVal summary) else ""
          processed_links :=
            match pls with
            | .arr elems => elems.filterMap validLinkJS
            | _ => [] }

/-- The deal list `fetchDeals` surfaces from a parsed JSON array:
`data.map(validateAndTransformDeal).filter(deal => deal !== null)`. -/
def validDeals (data : List JSValue) : List FeedItemJS :=
  data.filterMap validateAndTransformDeal

/-! ## Character lemmas -/

theorem toNat_ofNat_small (n : Nat) (h : n < 55296) : (Char.ofNat n).toNat = n := by
  rw [Char.ofNat, dif_pos (Or.inl h)]
  simp [Char.ofNatAux, Char.toNat, UInt32.toNat]

theorem char_eq_iff_toNat (c d : Char) : c = d ↔ c.toNat = d.toNat := by
  constructor
  · intro h
    rw [h]
  · intro h
    exact Char.ext (UInt32.toNat.inj h)

theorem lowerChar_toNat (c : Char) :
    (lowerChar c).toNat = if 65 ≤ c.toNat ∧ c.toNat ≤ 90 then c.toNat + 32 else c.toNat := by
  by_cases h : 65 ≤ c.toNat ∧ c.toNat ≤ 90
  · rw [lowerChar, if_pos h, if_pos h, toNat_ofNat_small]
    omega
  · rw [lowerChar, if_neg h, if_neg h]

theorem isAsciiAlpha_iff (c : Char) :
    isAsciiAlpha c = true ↔ (65 ≤ c.toNat ∧ c.toNat ≤ 90) ∨ (97 ≤ c.toNat ∧ c.toNat ≤ 122) := by
  simp only [isAsciiAlpha, Bool.or_eq_true, Bool.and_eq_true, decide_eq_true_eq]

theorem isSchemeChar_iff (c : Char) :
    isSchemeChar c = true ↔
      (65 ≤ c.toNat ∧ c.toNat ≤ 90) ∨ (97 ≤ c.toNat ∧ c.toNat ≤ 122) ∨
      (48 ≤ c.toNat ∧ c.toNat ≤ 57) ∨ c.toNat = 43 ∨ c.toNat = 45 ∨ c.toNat = 46 := by
  simp only [isSchemeChar, Bool.or_eq_true, Bool.and_eq_true, decide_eq_true_eq,
    isAsciiAlpha_iff, char_eq_iff_toNat]
  have h1 : ('+' : Char).toNat = 43 := rfl
  have h2 : ('-' : Char).toNat = 45 := rfl
  have h3 : ('.' : Char).toNat = 46 := rfl
  rw [h1, h2, h3]
  omega

theorem lowerChar_toNat_cases (c : Char) :
    ((lowerChar c).toNat = c.toNat + 32 ∧ 65 ≤ c.toNat ∧ c.toNat ≤ 90) ∨
    ((lowerChar c).toNat = c.toNat ∧ ¬(65 ≤ c.toNat ∧ c.toNat ≤ 90)) := by
  have h2 := lowerChar_toNat c
  by_cases h : 65 ≤ c.toNat ∧ c.toNat ≤ 90
  · rw [if_pos h] at h2
    exact Or.inl ⟨h2, h⟩
  · rw [if_neg h] at h2
    exact Or.inr ⟨h2, h⟩

theorem lowerChar_lowerChar (c : Char) : lowerChar (lowerChar c) = lowerChar c := by
  rw [char_eq_iff_toNat]
  have h1 := lowerChar_toNat (lowerChar c)
  rcases lowerChar_toNat_cases c with ⟨h2, hc⟩ | ⟨h2, hc⟩
  · rw [h2, if_neg (by omega)] at h1
    rw [h1, h2]
  · rw [h2, if_neg hc] at h1
    rw [h1, h2]

theorem isAsciiAlpha_lowerChar (c : Char) (h : isAsciiAlpha c = true) :
    isAsciiAlpha (lowerChar c) = true := by
  rw [isAsciiAlpha_iff] at h ⊢
  rcases lowerChar_toNat_cases c with ⟨h2, hc⟩ | ⟨h2, hc⟩ <;> rw [h2] <;> omega

theorem isSchemeChar_lowerChar (c : Char) (h : isSchemeChar c = true) :
    isSchemeChar (lowerChar c) = true := by
  rw [isSchemeChar_iff] at h ⊢
  rcases lowerChar_toNat_cases c with ⟨h2, hc⟩ | ⟨h2, hc⟩ <;> rw [h2] <;> omega

theorem isSchemeChar_toNat_facts (c : Char) (h : isSchemeChar c = true) :
    c.toNat ≠ 58 ∧ c.toNat ≠ 9 ∧ c.toNat ≠ 10 ∧ c.toNat ≠ 13 ∧ 32 < c.toNat ∧
    c.toNat ≠ 47 ∧ c.toNat ≠ 63 ∧ c.toNat ≠ 35 ∧ c.toNat ≠ 38 ∧ c.toNat ≠ 61 := by
  rw [isSchemeChar_iff] at h
  omega

/-! ## Splitting lemmas -/

theorem splitOnFirst_some (t : Char) (l a b : List Char)
    (h : splitOnFirst t l = some (a, b)) : l = a ++ t :: b ∧ t ∉ a := by
  induction l generalizing a with
  | nil => simp [splitOnFirst] at h
  | cons c cs ih =>
    rw [splitOnFirst] at h
    by_cases hc : c = t
    · rw [if_pos hc] at h
      cases h
      subst hc
      exact ⟨rfl, by simp⟩
    · rw [if_neg hc] at h
      cases hsp : splitOnFirst t cs with
      | none => rw [hsp] at h; cases h
      | some ab =>
        rw [hsp] at h
        cases h
        obtain ⟨h1, h2⟩ := ih ab.1 hsp
        constructor
        · rw [List.cons_append, ← h1]
        · intro hm
          rcases List.mem_cons.mp hm with h3 | h4
          · exact hc h3.symm
          · exact h2 h4

theorem splitOnFirst_none (t : Char) (l : List Char)
    (h : splitOnFirst t l = none) : t ∉ l := by
  induction l with
  | nil => simp
  | cons c cs ih =>
    rw [splitOnFirst] at h
    by_cases hc : c = t
    · rw [if_pos hc] at h
      cases h
    · rw [if_neg hc] at h
      cases hsp : splitOnFirst t cs with
      | none =>
        intro hm
        rcases List.mem_cons.mp hm with h3 | h4
        · exact hc h3.symm
        · exact ih hsp h4
      | some ab => rw [hsp] at h; cases h

theorem splitOnFirst_of_not_mem (t : Char) (l : List Char) (h : t ∉ l) :
    splitOnFirst t l = none := by
  induction l with
  | nil => rfl
  | cons c cs ih =>
    have hc : ¬(c = t) := fun hc => h (by rw [← hc]; exact List.mem_cons_self c cs)
    rw [splitOnFirst, if_neg hc, ih (fun hm => h (List.mem_cons_of_mem c hm))]

theorem splitOnFirst_append (t : Char) (a b : List Char) (h : t ∉ a) :
    splitOnFirst t (a ++ t :: b) = some (a, b) := by
  induction a with
  | nil => simp [splitOnFirst]
  | cons c cs ih =>
    have hc : ¬(c = t) := fun hc => h (hc ▸ List.mem_cons_self c cs)
    rw [List.cons_append, splitOnFirst, if_neg hc,
      ih (fun hm => h (List.mem_cons_of_mem c hm))]

theorem splitAtFirst_of_not_mem (t : Char) (l : List Char) (h : t ∉ l) :
    splitAtFirst t l = (l, []) := by
  rw [splitAtFirst, splitOnFirst_of_not_mem t l h]

theorem splitAtFirst_append (t : Char) (a b : List Char) (h : t ∉ a) :
    splitAtFirst t (a ++ t :: b) = (a, b) := by
  rw [splitAtFirst, splitOnFirst_append t a b h]

theorem splitOnAll_append (t : Char) (a b : List Char) :
    splitOnAll t (a ++ t :: b) = splitOnAll t a ++ splitOnAll t b := by
  induction a with
  | nil => simp [splitOnAll]
  | cons c cs ih =>
    by_cases hc : c = t
    · rw [List.cons_append, splitOnAll, if_pos hc, ih, splitOnAll, if_pos hc]
      rfl
    · rw [List.cons_append, splitOnAll, if_neg hc, ih, splitOnAll, if_neg hc]
      cases hs : splitOnAll t cs with
      | nil =>
        exfalso
        have : splitOnAll t cs ≠ [] := by
          induction cs with
          | nil => simp [splitOnAll]
          | cons d ds ihd =>
            rw [splitOnAll]
            by_cases hd : d = t
            · rw [if_pos hd]
              simp
            · rw [if_neg hd]
              cases splitOnAll t ds <;> simp
        exact this hs
      | cons h1 tl => simp

theorem splitOnAll_ne_nil (t : Char) (l : List Char) : splitOnAll t l ≠ [] := by
  induction l with
  | nil => simp [splitOnAll]
  | cons d ds ihd =>
    rw [splitOnAll]
    by_cases hd : d = t
    · rw [if_pos hd]
      simp
    · rw [if_neg hd]
      cases splitOnAll t ds <;> simp

theorem splitOnAll_of_not_mem (t : Char) (l : List Char) (h : t ∉ l) :
    splitOnAll t l = [l] := by
  induction l with
  | nil => rfl
  | cons c cs ih =>
    have hc : ¬(c = t) := fun hc => h (hc ▸ List.mem_cons_self c cs)
    rw [splitOnAll, if_neg hc, ih (fun hm => h (List.mem_cons_of_mem c hm))]

theorem splitOnAll_sub (t : Char) (l : List Char) (s : List Char)
    (hs : s ∈ splitOnAll t l) (c : Char) (hc : c ∈ s) : c ∈ l := by
  induction l generalizing s with
  | nil =>
    rw [splitOnAll] at hs
    simp at hs
    subst hs
    cases hc
  | cons d ds ih =>
    rw [splitOnAll] at hs
    by_cases hd : d = t
    · rw [if_pos hd] at hs
      rcases List.mem_cons.mp hs with h1 | h2
      · subst h1
        cases hc
      · exact List.mem_cons_of_mem d (ih s h2 hc)
    · rw [if_neg hd] at hs
      cases hsp : splitOnAll t ds with
      | nil => exact absurd hsp (splitOnAll_ne_nil t ds)
      | cons h1 tl =>
        rw [hsp] at hs
        rcases List.mem_cons.mp hs with h2 | h3
        · subst h2
          rcases List.mem_cons.mp hc with h4 | h5
          · exact h4 ▸ List.mem_cons_self d ds
          · exact List.mem_cons_of_mem d (ih h1 (hsp ▸ List.mem_cons_self h1 tl) h5)
        · exact List.mem_cons_of_mem d (ih s (hsp ▸ List.mem_cons_of_mem h1 h3) hc)

theorem splitOnAll_not_mem_self (t : Char) (l : List Char) (s : List Char)
    (hs : s ∈ splitOnAll t l) : t ∉ s := by
  induction l generalizing s with
  | nil =>
    rw [splitOnAll] at hs
    simp at hs
    subst hs
    simp
  | cons d ds ih =>
    rw [splitOnAll] at hs
    by_cases hd : d = t
    · rw [if_pos hd] at hs
      rcases List.mem_cons.mp hs with h1 | h2
      · subst h1
        simp
      · exact ih s h2
    · rw [if_neg hd] at hs
      cases hsp : splitOnAll t ds with
      | nil => exact absurd hsp (splitOnAll_ne_nil t ds)
      | cons h1 tl =>
        rw [hsp] at hs
        rcases List.mem_cons.mp hs with h2 | h3
        · subst h2
          intro hm
          rcases List.mem_cons.mp hm with h4 | h5
          · exact hd h4.symm
          · exact ih h1 (hsp ▸ List.mem_cons_self h1 tl) h5
        · exact ih s (hsp ▸ List.mem_cons_of_mem h1 h3)

/-! ## Query round-trip toolkit -/

/-- Well-formedness of one key/value pair as `parse_qsl` produces it. -/
def wfPair (kv : List Char × List Char) : Prop :=
  '&' ∉ kv.1 ∧ '=' ∉ kv.1 ∧ '&' ∉ kv.2 ∧ kv.2 ≠ []

/-- Ungrouping of a grouped query. -/
def flatPairs (g : List (List Char × List (List Char))) : List (List Char × List Char) :=
  List.flatten (g.map fun kv => kv.2.map fun v => (kv.1, v))

/-- Keys of a grouped query. -/
def keysOf (g : List (List Char × List (List Char))) : List (List Char) :=
  g.map Prod.fst

/-- Well-formedness of a grouped query as `parse_qs` produces it. -/
def WFGroups (g : List (List Char × List (List Char))) : Prop :=
  (keysOf g).Nodup ∧
  ∀ kv ∈ g, '&' ∉ kv.1 ∧ '=' ∉ kv.1 ∧ kv.2 ≠ [] ∧ ∀ v ∈ kv.2, '&' ∉ v ∧ v ≠ []

/-- Encoding of an ungrouped pair list. -/
def segJoin (pairs : List (List Char × List Char)) : List Char :=
  joinAmp (pairs.map fun kv => kv.1 ++ '=' :: kv.2)

theorem parse_qsl_append (q1 q2 : List Char) :
    parse_qsl (q1 ++ '&' :: q2) = parse_qsl q1 ++ parse_qsl q2 := by
  rw [parse_qsl, parse_qsl, parse_qsl, splitOnAll_append, List.filterMap_append]

theorem parse_qsl_single (k v : List Char) (hk : '=' ∉ k) (hv : v ≠ [])
    (ha : '&' ∉ k ++ '=' :: v) : parse_qsl (k ++ '=' :: v) = [(k, v)] := by
  rw [parse_qsl, splitOnAll_of_not_mem _ _ ha]
  simp only [List.filterMap_cons, List.filterMap_nil, splitOnFirst_append '=' k v hk]
  rw [if_neg hv]

theorem parse_qsl_mem (q : List Char) (kv : List Char × List Char)
    (h : kv ∈ parse_qsl q) :
    wfPair kv ∧ (∀ c ∈ kv.1, c ∈ q) ∧ (∀ c ∈ kv.2, c ∈ q) := by
  rw [parse_qsl] at h
  obtain ⟨s, hs, hf⟩ := List.mem_filterMap.mp h
  cases hsp : splitOnFirst '=' s with
  | none => rw [hsp] at hf; cases hf
  | some nv =>
    obtain ⟨n, v⟩ := nv
    rw [hsp] at hf
    by_cases hvnil : v = []
    · rw [show ((match some (n, v) with
          | none => none
          | some (n, v) => if v = [] then none else some (n, v)) :
            Option (List Char × List Char)) =
          (if v = [] then none else some (n, v)) from rfl, if_pos hvnil] at hf
      cases hf
    · rw [show ((match some (n, v) with
          | none => none
          | some (n, v) => if v = [] then none else some (n, v)) :
            Option (List Char × List Char)) =
          (if v = [] then none else some (n, v)) from rfl, if_neg hvnil] at hf
      cases hf
      obtain ⟨hseq, hknein⟩ := splitOnFirst_some '=' s n v hsp
      have hamp : '&' ∉ s := splitOnAll_not_mem_self '&' q s hs
      have hsub : ∀ c ∈ s, c ∈ q := splitOnAll_sub '&' q s hs
      refine ⟨⟨?_, hknein, ?_, hvnil⟩, ?_, ?_⟩
      · intro hm
        exact hamp (hseq ▸ List.mem_append_left _ hm)
      · intro hm
        exact hamp (hseq ▸ List.mem_append_right _ (List.mem_cons_of_mem _ hm))
      · intro c hc
        exact hsub c (hseq ▸ List.mem_append_left _ hc)
      · intro c hc
        exact hsub c (hseq ▸ List.mem_append_right _ (List.mem_cons_of_mem _ hc))

theorem joinAmp_cons (x : List Char) (xs : List (List Char)) (h : xs ≠ []) :
    joinAmp (x :: xs) = x ++ '&' :: joinAmp xs := by
  cases xs with
  | nil => exact absurd rfl h
  | cons y ys => rfl

theorem joinAmp_chars (xs : List (List Char)) (c : Char) (h : c ∈ joinAmp xs) :
    (∃ x ∈ xs, c ∈ x) ∨ c = '&' := by
  induction xs with
  | nil => cases h
  | cons x ys ih =>
    cases ys with
    | nil =>
      rw [joinAmp] at h
      exact Or.inl ⟨x, List.mem_cons_self x [], h⟩
    | cons z zs =>
      rw [joinAmp_cons x (z :: zs) (by simp)] at h
      rcases List.mem_append.mp h with h1 | h2
      · exact Or.inl ⟨x, List.mem_cons_self _ _, h1⟩
      · rcases List.mem_cons.mp h2 with h3 | h4
        · exact Or.inr h3
        · rcases ih h4 with ⟨y, hy, hc⟩ | h5
          · exact Or.inl ⟨y, List.mem_cons_of_mem x hy, hc⟩
          · exact Or.inr h5

theorem parse_qsl_segJoin (pairs : List (List Char × List Char))
    (h : ∀ kv ∈ pairs, wfPair kv) : parse_qsl (segJoin pairs) = pairs := by
  induction pairs with
  | nil => rfl
  | cons kv rest ih =>
    obtain ⟨ha1, hk, ha2, hv⟩ := h kv (List.mem_cons_self kv rest)
    have hseg : '&' ∉ kv.1 ++ '=' :: kv.2 := by
      intro hm
      rcases List.mem_append.mp hm with h1 | h2
      · exact ha1 h1
      · rcases List.mem_cons.mp h2 with h3 | h4
        · cases h3
        · exact ha2 h4
    cases rest with
    | nil =>
      rw [segJoin, List.map_cons, List.map_nil, joinAmp]
      exact parse_qsl_single kv.1 kv.2 hk hv hseg
    | cons r rs =>
      rw [segJoin, List.map_cons,
        joinAmp_cons _ _ (by simp), List.append_assoc]
      rw [show ('&' :: joinAmp ((r :: rs).map fun kv => kv.1 ++ '=' :: kv.2)) =
        '&' :: segJoin (r :: rs) from rfl]
      rw [← List.append_assoc, parse_qsl_append, parse_qsl_single kv.1 kv.2 hk hv hseg,
        ih (fun kv2 hm => h kv2 (List.mem_cons_of_mem kv hm))]
      rfl

theorem keysOf_cons (kv : List Char × List (List Char))
    (g : List (List Char × List (List Char))) : keysOf (kv :: g) = kv.1 :: keysOf g := rfl

theorem keysOf_append (a b : List (List Char × List (List Char))) :
    keysOf (a ++ b) = keysOf a ++ keysOf b := by
  simp [keysOf]

theorem keysOf_groupInsert (k v : List Char) (g : List (List Char × List (List Char))) :
    keysOf (groupInsert k v g) = if k ∈ keysOf g then keysOf g else keysOf g ++ [k] := by
  induction g with
  | nil => simp [groupInsert, keysOf]
  | cons kv rest ih =>
    obtain ⟨k', vs⟩ := kv
    rw [groupInsert]
    by_cases hk : k' = k
    · subst hk
      rw [if_pos rfl, if_pos (by rw [keysOf_cons]; exact List.mem_cons_self _ _)]
      rw [keysOf_cons, keysOf_cons]
    · rw [if_neg hk]
      by_cases hm : k ∈ keysOf rest
      · rw [if_pos (by rw [keysOf_cons]; exact List.mem_cons_of_mem _ hm)]
        rw [keysOf_cons, keysOf_cons, ih, if_pos hm]
      · have hnot : k ∉ keysOf ((k', vs) :: rest) := by
          rw [keysOf_cons]
          intro hx
          rcases List.mem_cons.mp hx with h1 | h2
          · exact hk h1.symm
          · exact hm h2
        rw [if_neg hnot, keysOf_cons, keysOf_cons, ih, if_neg hm, List.cons_append]

theorem groupInsert_not_mem (k v : List Char) (g : List (List Char × List (List Char)))
    (h : k ∉ keysOf g) : groupInsert k v g = g ++ [(k, [v])] := by
  induction g with
  | nil => rfl
  | cons kv rest ih =>
    obtain ⟨k', vs⟩ := kv
    have hk : ¬(k' = k) := by
      intro he
      exact h (by simp [keysOf, he])
    rw [groupInsert, if_neg hk, ih (fun hm => h (by simp [keysOf] at hm ⊢; exact Or.inr hm))]
    rfl

theorem groupInsert_last (k v : List Char) (acc : List (List Char × List (List Char)))
    (ws : List (List Char)) (h : k ∉ keysOf acc) :
    groupInsert k v (acc ++ [(k, ws)]) = acc ++ [(k, ws ++ [v])] := by
  induction acc with
  | nil => simp [groupInsert]
  | cons kv rest ih =>
    obtain ⟨k', vs⟩ := kv
    have hk : ¬(k' = k) := by
      intro he
      exact h (by simp [keysOf, he])
    rw [List.cons_append, groupInsert, if_neg hk,
      ih (fun hm => h (by simp [keysOf] at hm ⊢; exact Or.inr hm))]
    rfl

theorem foldl_groupInsert_vals (k : List Char) (vs : List (List Char)) :
    ∀ (acc : List (List Char × List (List Char))) (ws : List (List Char)),
    k ∉ keysOf acc →
    List.foldl (fun acc kv => groupInsert kv.1 kv.2 acc) (acc ++ [(k, ws)])
      (vs.map fun v => (k, v)) = acc ++ [(k, ws ++ vs)] := by
  induction vs with
  | nil => intro acc ws _; simp
  | cons v rest ih =>
    intro acc ws hk
    rw [List.map_cons, List.foldl_cons]
    rw [show groupInsert (k, v).1 (k, v).2 (acc ++ [(k, ws)]) =
      acc ++ [(k, ws ++ [v])] from groupInsert_last k v acc ws hk]
    rw [ih acc (ws ++ [v]) hk]
    simp

theorem foldl_groupInsert_flat (g : List (List Char × List (List Char))) :
    ∀ (acc : List (List Char × List (List Char))),
    (∀ k ∈ keysOf g, k ∉ keysOf acc) → (keysOf g).Nodup →
    (∀ kv ∈ g, kv.2 ≠ []) →
    List.foldl (fun acc kv => groupInsert kv.1 kv.2 acc) acc (flatPairs g) = acc ++ g := by
  induction g with
  | nil => intro acc _ _ _; simp [flatPairs]
  | cons kv rest ih =>
    intro acc hdisj hnodup hne
    obtain ⟨k, vs⟩ := kv
    have hflat : flatPairs ((k, vs) :: rest) = (vs.map fun v => (k, v)) ++ flatPairs rest := by
      simp [flatPairs]
    rw [hflat, List.foldl_append]
    have hkacc : k ∉ keysOf acc := hdisj k (by simp [keysOf])
    have hvs : vs ≠ [] := hne (k, vs) (List.mem_cons_self _ _)
    cases hv : vs with
    | nil => exact absurd hv hvs -- placeholder
    | cons v vrest =>
      have hstep : List.foldl (fun acc kv => groupInsert kv.1 kv.2 acc) acc
          ((v :: vrest).map fun v => (k, v)) = acc ++ [(k, v :: vrest)] := by
        rw [List.map_cons, List.foldl_cons]
        rw [show groupInsert (k, v).1 (k, v).2 acc = acc ++ [(k, [v])] from
          groupInsert_not_mem k v acc hkacc]
        rw [foldl_groupInsert_vals k vrest acc [v] hkacc]
        rfl
      rw [hstep]
      have hknotrest : k ∉ keysOf rest := by
        rw [keysOf, List.map_cons] at hnodup
        exact (List.nodup_cons.mp hnodup).1
      have hrest := ih (acc ++ [(k, v :: vrest)])
        (by
          intro k2 hk2 hmem
          rw [keysOf, List.map_append] at hmem
          rcases List.mem_append.mp hmem with h1 | h2
          · exact hdisj k2 (by rw [keysOf, List.map_cons]; exact List.mem_cons_of_mem _ hk2) h1
          · simp at h2
            subst h2
            exact hknotrest hk2)
        (by
          rw [keysOf, List.map_cons] at hnodup
          exact (List.nodup_cons.mp hnodup).2)
        (fun kv2 hm => hne kv2 (List.mem_cons_of_mem _ hm))
      rw [hrest]
      simp

theorem flatPairs_mem (g : List (List Char × List (List Char)))
    (kv : List Char × List Char) (h : kv ∈ flatPairs g) :
    ∃ vs, (kv.1, vs) ∈ g ∧ kv.2 ∈ vs := by
  rw [flatPairs] at h
  obtain ⟨l, hl, hkv⟩ := List.mem_flatten.mp h
  obtain ⟨kg, hkg, heq⟩ := List.mem_map.mp hl
  subst heq
  obtain ⟨v, hv, heq2⟩ := List.mem_map.mp hkv
  refine ⟨kg.2, ?_, ?_⟩
  · rw [show kv.1 = kg.1 from by rw [← heq2]]
    exact hkg
  · rw [show kv.2 = v from by rw [← heq2]]
    exact hv

theorem urlencode_eq_segJoin (g : List (List Char × List (List Char))) :
    urlencode g = segJoin (flatPairs g) := by
  rw [urlencode, segJoin, flatPairs, List.map_flatten, List.map_map]
  have hfun : ((List.map fun kv => kv.1 ++ '=' :: kv.2) ∘
      fun kv : List Char × List (List Char) => List.map (fun v => (kv.1, v)) kv.2) =
      fun kv : List Char × List (List Char) => List.map (fun v => kv.1 ++ '=' :: v) kv.2 := by
    funext kv
    rw [Function.comp_apply, List.map_map]
    rfl
  rw [hfun]

theorem parse_qs_urlencode (g : List (List Char × List (List Char)))
    (h : WFGroups g) : parse_qs (urlencode g) = g := by
  obtain ⟨hnodup, hfacts⟩ := h
  rw [parse_qs, urlencode_eq_segJoin, parse_qsl_segJoin]
  · exact foldl_groupInsert_flat g [] (by simp [keysOf]) hnodup
      (fun kv hm => (hfacts kv hm).2.2.1)
  · intro kv hm
    obtain ⟨vs, hvs, hv⟩ := flatPairs_mem g kv hm
    obtain ⟨h1, h2, _, h4⟩ := hfacts (kv.1, vs) hvs
    exact ⟨h1, h2, (h4 kv.2 hv).1, (h4 kv.2 hv).2⟩

theorem groupInsert_inv (Q : List Char × List Char → Prop) (k v : List Char)
    (acc : List (List Char × List (List Char))) (hQ : Q (k, v))
    (h1 : (keysOf acc).Nodup)
    (h2 : ∀ kv ∈ acc, kv.2 ≠ [] ∧ ∀ w ∈ kv.2, Q (kv.1, w)) :
    (keysOf (groupInsert k v acc)).Nodup ∧
    ∀ kv ∈ groupInsert k v acc, kv.2 ≠ [] ∧ ∀ w ∈ kv.2, Q (kv.1, w) := by
  induction acc with
  | nil =>
    refine ⟨by simp [groupInsert, keysOf], ?_⟩
    intro kv hm
    rw [groupInsert] at hm
    rcases List.mem_cons.mp hm with h3 | h4
    · subst h3
      refine ⟨by simp, ?_⟩
      intro w hw
      rw [List.mem_singleton.mp hw]
      exact hQ
    · cases h4
  | cons kv0 rest ih =>
    obtain ⟨k', vs⟩ := kv0
    rw [keysOf_cons] at h1
    have h1r := (List.nodup_cons.mp h1).2
    have h1k : k' ∉ keysOf rest := (List.nodup_cons.mp h1).1
    have h2r : ∀ kv ∈ rest, kv.2 ≠ [] ∧ ∀ w ∈ kv.2, Q (kv.1, w) :=
      fun kv hm => h2 kv (List.mem_cons_of_mem _ hm)
    rw [groupInsert]
    by_cases hk : k' = k
    · subst hk
      rw [if_pos rfl]
      refine ⟨?_, ?_⟩
      · rw [keysOf_cons]
        exact List.nodup_cons.mpr ⟨h1k, h1r⟩
      · intro kv hm
        rcases List.mem_cons.mp hm with h3 | h4
        · subst h3
          refine ⟨by simp, ?_⟩
          intro w hw
          rcases List.mem_append.mp hw with h5 | h6
          · exact (h2 (k', vs) (List.mem_cons_self _ _)).2 w h5
          · rw [List.mem_singleton.mp h6]
            exact hQ
        · exact h2r kv h4
    · rw [if_neg hk]
      obtain ⟨ih1, ih2⟩ := ih h1r h2r
      refine ⟨?_, ?_⟩
      · rw [keysOf_cons]
        refine List.nodup_cons.mpr ⟨?_, ih1⟩
        rw [keysOf_groupInsert]
        by_cases hm : k ∈ keysOf rest
        · rw [if_pos hm]
          exact h1k
        · rw [if_neg hm]
          intro hx
          rcases List.mem_append.mp hx with h5 | h6
          · exact h1k h5
          · exact hk (List.mem_singleton.mp h6)
      · intro kv hm
        rcases List.mem_cons.mp hm with h3 | h4
        · subst h3
          exact h2 (k', vs) (List.mem_cons_self _ _)
        · exact ih2 kv h4

theorem foldl_groupInsert_inv (Q : List Char × List Char → Prop)
    (pairs : List (List Char × List Char)) :
    ∀ (acc : List (List Char × List (List Char))),
    (∀ kv ∈ pairs, Q kv) →
    (keysOf acc).Nodup →
    (∀ kv ∈ acc, kv.2 ≠ [] ∧ ∀ w ∈ kv.2, Q (kv.1, w)) →
    (keysOf (List.foldl (fun acc kv => groupInsert kv.1 kv.2 acc) acc pairs)).Nodup ∧
    ∀ kv ∈ List.foldl (fun acc kv => groupInsert kv.1 kv.2 acc) acc pairs,
      kv.2 ≠ [] ∧ ∀ w ∈ kv.2, Q (kv.1, w) := by
  induction pairs with
  | nil => intro acc _ h1 h2; exact ⟨h1, h2⟩
  | cons kv0 rest ih =>
    intro acc hQ h1 h2
    rw [List.foldl_cons]
    have hQ0 : Q (kv0.1, kv0.2) := by
      rw [show (kv0.1, kv0.2) = kv0 from rfl]
      exact hQ kv0 (List.mem_cons_self _ _)
    obtain ⟨g1, g2⟩ := groupInsert_inv Q kv0.1 kv0.2 acc hQ0 h1 h2
    exact ih (groupInsert kv0.1 kv0.2 acc) (fun kv hm => hQ kv (List.mem_cons_of_mem _ hm)) g1 g2

theorem parse_qs_facts (q : List Char) :
    WFGroups (parse_qs q) ∧ ∀ kv ∈ parse_qs q, ∀ v ∈ kv.2, (kv.1, v) ∈ parse_qsl q := by
  have hinv := foldl_groupInsert_inv (fun kv => kv ∈ parse_qsl q) (parse_qsl q) []
    (fun kv hm => hm) (by simp [keysOf]) (by simp)
  rw [← parse_qs] at hinv
  obtain ⟨h1, h2⟩ := hinv
  refine ⟨⟨h1, ?_⟩, fun kv hm v hv => (h2 kv hm).2 v hv⟩
  intro kv hm
  obtain ⟨hne, hall⟩ := h2 kv hm
  obtain ⟨v, hv⟩ := List.exists_mem_of_ne_nil kv.2 hne
  have hv0 : (kv.1, v) ∈ parse_qsl q := hall v hv
  obtain ⟨⟨w1, w2, _, _⟩, _, _⟩ := parse_qsl_mem q (kv.1, v) hv0
  refine ⟨w1, w2, hne, ?_⟩
  intro w hw
  obtain ⟨⟨_, _, w3, w4⟩, _, _⟩ := parse_qsl_mem q (kv.1, w) (hall w hw)
  exact ⟨w3, w4⟩

theorem cleanQuery_wf (q : List Char) : WFGroups (cleanQuery q) := by
  obtain ⟨⟨h1, h2⟩, _⟩ := parse_qs_facts q
  refine ⟨?_, ?_⟩
  · exact List.Nodup.sublist (List.Sublist.map Prod.fst (List.filter_sublist _)) h1
  · intro kv hm
    exact h2 kv (List.mem_of_mem_filter hm)

theorem cleanQuery_mem_parse_qsl (q : List Char) (kv : List Char × List (List Char))
    (h : kv ∈ cleanQuery q) (v : List Char) (hv : v ∈ kv.2) : (kv.1, v) ∈ parse_qsl q :=
  (parse_qs_facts q).2 kv (List.mem_of_mem_filter h) v hv

theorem cleanQuery_keys_good (q : List Char) (kv : List Char × List (List Char))
    (h : kv ∈ cleanQuery q) : kv.1 ∉ bad_keys := by
  have hb := (List.mem_filter.mp h).2
  intro hm
  rw [show (bad_keys.contains kv.1) = List.elem kv.1 bad_keys from rfl,
    List.elem_iff.mpr hm] at hb
  simp at hb

theorem cleanQuery_stable (q : List Char) :
    cleanQuery (urlencode (cleanQuery q)) = cleanQuery q := by
  rw [show cleanQuery (urlencode (cleanQuery q)) =
    (parse_qs (urlencode (cleanQuery q))).filter (fun kv => !(bad_keys.contains kv.1)) from rfl]
  rw [parse_qs_urlencode (cleanQuery q) (cleanQuery_wf q)]
  rw [show cleanQuery q = (parse_qs q).filter (fun kv => !(bad_keys.contains kv.1)) from rfl]
  rw [List.filter_filter]
  apply List.filter_congr
  intro kv _
  rw [Bool.and_self]

theorem urlencode_ne_nil (g : List (List Char × List (List Char)))
    (hg : g ≠ []) (h : WFGroups g) : urlencode g ≠ [] := by
  obtain ⟨_, hfacts⟩ := h
  cases g with
  | nil => exact absurd rfl hg
  | cons kv rest =>
    obtain ⟨k0, vs0⟩ := kv
    obtain ⟨_, _, hvs, _⟩ := hfacts (k0, vs0) (List.mem_cons_self _ _)
    cases vs0 with
    | nil => exact absurd rfl hvs
    | cons v vrest =>
      rw [urlencode, List.map_cons]
      rw [show ((k0, v :: vrest).2.map fun w => (k0, v :: vrest).1 ++ '=' :: w) =
        (k0 ++ '=' :: v) :: (vrest.map fun w => k0 ++ '=' :: w) from rfl]
      rw [List.flatten_cons, List.cons_append]
      cases hrest : (vrest.map fun w => k0 ++ '=' :: w) ++
          List.flatten (rest.map fun kv => kv.2.map fun w => kv.1 ++ '=' :: w) with
      | nil =>
        simp [joinAmp]
      | cons s ss =>
        rw [joinAmp_cons _ _ (by simp)]
        simp

theorem urlencode_cleanQuery_chars (q : List Char) (c : Char)
    (h : c ∈ urlencode (cleanQuery q)) : c ∈ q ∨ c = '=' ∨ c = '&' := by
  rw [urlencode_eq_segJoin, segJoin] at h
  rcases joinAmp_chars _ c h with ⟨x, hx, hcx⟩ | hamp
  · obtain ⟨kv, hkv, heq⟩ := List.mem_map.mp hx
    subst heq
    obtain ⟨vs, hvs, hv⟩ := flatPairs_mem _ kv hkv
    have hql : (kv.1, kv.2) ∈ parse_qsl q := by
      have := cleanQuery_mem_parse_qsl q (kv.1, vs) hvs kv.2 hv
      exact this
    obtain ⟨_, hk, hvq⟩ := parse_qsl_mem q (kv.1, kv.2) hql
    rcases List.mem_append.mp hcx with h1 | h2
    · exact Or.inl (hk c h1)
    · rcases List.mem_cons.mp h2 with h3 | h4
      · exact Or.inr (Or.inl h3)
      · exact Or.inl (hvq c h4)
  · exact Or.inr (Or.inr hamp)

/-! ## URL round-trip toolkit -/

/-- Absence of the bytes `urlsplit` deletes. -/
def noUnsafe (l : List Char) : Prop :=
  ∀ c ∈ l, c.toNat ≠ 9 ∧ c.toNat ≠ 10 ∧ c.toNat ≠ 13

/-- Shape of a scheme component as `urlsplit` produces it. -/
def GoodScheme (s : List Char) : Prop :=
  s = [] ∨ (schemeValidPre s = true ∧ s.map lowerChar = s)

theorem schemeValidPre_facts (s : List Char) (h : schemeValidPre s = true) :
    (∀ c ∈ s, isSchemeChar c = true) ∧ ∃ c cs, s = c :: cs ∧ isAsciiAlpha c = true := by
  cases s with
  | nil => cases h
  | cons c cs =>
    rw [schemeValidPre] at h
    obtain ⟨h1, h2⟩ := Bool.and_eq_true_iff.mp h
    exact ⟨List.all_eq_true.mp h2, c, cs, rfl, h1⟩

theorem schemeValidPre_not_mem (s : List Char) (h : schemeValidPre s = true) :
    ':' ∉ s ∧ '/' ∉ s ∧ '?' ∉ s ∧ '#' ∉ s ∧ '&' ∉ s ∧ noUnsafe s := by
  obtain ⟨hall, _⟩ := schemeValidPre_facts s h
  have key : ∀ c ∈ s, c.toNat ≠ 58 ∧ c.toNat ≠ 47 ∧ c.toNat ≠ 63 ∧ c.toNat ≠ 35 ∧
      c.toNat ≠ 38 ∧ c.toNat ≠ 9 ∧ c.toNat ≠ 10 ∧ c.toNat ≠ 13 := by
    intro c hc
    have := isSchemeChar_toNat_facts c (hall c hc)
    exact ⟨this.1, this.2.2.2.2.2.1, this.2.2.2.2.2.2.1, this.2.2.2.2.2.2.2.1,
      this.2.2.2.2.2.2.2.2.1, this.2.1, this.2.2.1, this.2.2.2.1⟩
  refine ⟨?_, ?_, ?_, ?_, ?_, ?_⟩
  · intro hm
    exact (key ':' hm).1 rfl
  · intro hm
    exact (key '/' hm).2.1 rfl
  · intro hm
    exact (key '?' hm).2.2.1 rfl
  · intro hm
    exact (key '#' hm).2.2.2.1 rfl
  · intro hm
    exact (key '&' hm).2.2.2.2.1 rfl
  · intro c hc
    exact ⟨(key c hc).2.2.2.2.2.1, (key c hc).2.2.2.2.2.2.1, (key c hc).2.2.2.2.2.2.2⟩

theorem preprocessUrl_eq_self (l : List Char)
    (hhead : l = [] ∨ ∃ c cs, l = c :: cs ∧ 32 < c.toNat)
    (hsafe : noUnsafe l) : preprocessUrl l = l := by
  rw [preprocessUrl]
  have hdrop : (l.dropWhile fun c => c.toNat ≤ 32) = l := by
    rcases hhead with h1 | ⟨c, cs, h2, h3⟩
    · rw [h1, List.dropWhile_nil]
    · rw [h2]
      exact List.dropWhile_cons_of_neg (by simp; omega)
  rw [hdrop]
  rw [List.filter_eq_self]
  intro c hc
  obtain ⟨n1, n2, n3⟩ := hsafe c hc
  simp [n1, n2, n3]

theorem splitScheme_valid (s rest : List Char) (h1 : schemeValidPre s = true)
    (h2 : s.map lowerChar = s) : splitScheme (s ++ ':' :: rest) = (s, rest) := by
  have hni : ':' ∉ s := (schemeValidPre_not_mem s h1).1
  rw [splitScheme, splitOnFirst_append ':' s rest hni]
  show (if schemeValidPre s = true then (List.map lowerChar s, rest)
    else ([], s ++ ':' :: rest)) = (s, rest)
  rw [if_pos h1, h2]

theorem splitScheme_head_bad (c : Char) (cs : List Char) (h : isAsciiAlpha c = false) :
    splitScheme (c :: cs) = ([], c :: cs) := by
  rw [splitScheme]
  cases hsp : splitOnFirst ':' (c :: cs) with
  | none => rfl
  | some ab =>
    obtain ⟨a, b⟩ := ab
    obtain ⟨heq, hnot⟩ := splitOnFirst_some ':' (c :: cs) a b hsp
    cases a with
    | nil =>
      show (if schemeValidPre [] = true then (List.map lowerChar [], b)
        else ([], c :: cs)) = ([], c :: cs)
      rw [if_neg (by decide)]
    | cons a0 arest =>
      have ha0 : a0 = c := by
        rw [List.cons_append] at heq
        exact ((List.cons.injEq _ _ _ _).mp heq).1.symm
      subst ha0
      show (if schemeValidPre (a0 :: arest) = true then (List.map lowerChar (a0 :: arest), b)
        else ([], a0 :: cs)) = ([], a0 :: cs)
      have hpre : schemeValidPre (a0 :: arest) = false := by
        show (isAsciiAlpha a0 && (a0 :: arest).all isSchemeChar) = false
        rw [h]
        simp
      rw [if_neg (by rw [hpre]; simp)]

theorem dropWhile_shape (p : Char → Bool) (l : List Char) :
    l.dropWhile p = [] ∨ ∃ c cs, l.dropWhile p = c :: cs ∧ p c = false := by
  cases hd : l.dropWhile p with
  | nil => exact Or.inl rfl
  | cons c cs =>
    refine Or.inr ⟨c, cs, rfl, ?_⟩
    have := List.head?_dropWhile_not p l
    rw [hd] at this
    simpa using this

theorem splitNetloc_mk (nl rest : List Char)
    (hnl : ∀ c ∈ nl, isNetlocChar c = true)
    (hrest : rest = [] ∨ ∃ c cs, rest = c :: cs ∧ isNetlocChar c = false)
    (hbr : (nl.contains '[') = (nl.contains ']')) :
    splitNetloc ('/' :: '/' :: (nl ++ rest)) = some (nl, rest) := by
  have htake : (nl ++ rest).takeWhile isNetlocChar = nl := by
    rw [List.takeWhile_append_of_pos hnl]
    rcases hrest with h1 | ⟨c, cs, h2, h3⟩
    · rw [h1, List.takeWhile_nil, List.append_nil]
    · rw [h2, List.takeWhile_cons_of_neg (by rw [h3]; simp), List.append_nil]
  have hdrop : (nl ++ rest).dropWhile isNetlocChar = rest := by
    rw [List.dropWhile_append_of_pos hnl]
    rcases hrest with h1 | ⟨c, cs, h2, h3⟩
    · rw [h1, List.dropWhile_nil]
    · rw [h2, List.dropWhile_cons_of_neg (by rw [h3]; simp)]
  show (if (((nl ++ rest).takeWhile isNetlocChar).contains '[') =
      (((nl ++ rest).takeWhile isNetlocChar).contains ']')
    then some ((nl ++ rest).takeWhile isNetlocChar, (nl ++ rest).dropWhile isNetlocChar)
    else none) = some (nl, rest)
  rw [htake, hdrop, if_pos hbr]

theorem noUnsafe_nil : noUnsafe [] := by
  intro c hc
  cases hc

theorem noUnsafe_append (a b : List Char) (ha : noUnsafe a) (hb : noUnsafe b) :
    noUnsafe (a ++ b) := by
  intro c hc
  rcases List.mem_append.mp hc with h | h
  · exact ha c h
  · exact hb c h

theorem noUnsafe_cons (c : Char) (l : List Char)
    (hc : c.toNat ≠ 9 ∧ c.toNat ≠ 10 ∧ c.toNat ≠ 13) (hl : noUnsafe l) :
    noUnsafe (c :: l) := by
  intro d hd
  rcases List.mem_cons.mp hd with h | h
  · rw [h]
    exact hc
  · exact hl d h

theorem isAsciiAlpha_gt32 (c : Char) (h : isAsciiAlpha c = true) : 32 < c.toNat := by
  rw [isAsciiAlpha_iff] at h
  omega

theorem urlsplit_urlunsplit (p : UrlParts)
    (hnl : p.netloc ≠ [])
    (hs : GoodScheme p.scheme)
    (hnlc : ∀ c ∈ p.netloc, isNetlocChar c = true)
    (hbr : (p.netloc.contains '[') = (p.netloc.contains ']'))
    (hph : p.path = [] ∨ p.path.head? = some '/')
    (hpf : '#' ∉ p.path) (hpq : '?' ∉ p.path) (hqf : '#' ∉ p.query)
    (hun : noUnsafe p.netloc) (hup : noUnsafe p.path) (huq : noUnsafe p.query)
    (huf : noUnsafe p.fragment) :
    urlsplit (urlunsplit p) = .ok p := by
  have hinner : (if p.path ≠ [] ∧ p.path.head? ≠ some '/' then '/' :: p.path else p.path)
      = p.path := by
    rcases hph with h | h
    · rw [if_neg]
      simp [h]
    · rw [if_neg]
      simp [h]
  have hshape : urlunsplit p =
      (if p.scheme = [] then
        '/' :: '/' :: (p.netloc ++ (p.path ++
          ((if p.query = [] then [] else '?' :: p.query) ++
           (if p.fragment = [] then [] else '#' :: p.fragment))))
      else p.scheme ++ ':' :: ('/' :: '/' :: (p.netloc ++ (p.path ++
          ((if p.query = [] then [] else '?' :: p.query) ++
           (if p.fragment = [] then [] else '#' :: p.fragment)))))) := by
    by_cases h1 : p.scheme = [] <;> by_cases h2 : p.query = [] <;>
      by_cases h3 : p.fragment = [] <;>
      simp only [urlunsplit, if_pos (Or.inl hnl), hinner, h1, h2, h3, if_pos, if_neg,
        ite_true, ite_false, if_true, if_false, ne_eq, not_true_eq_false, not_false_eq_true,
        List.append_nil, List.cons_append, List.append_assoc, List.nil_append]
  set qsSeg : List Char := if p.query = [] then [] else '?' :: p.query with hqsdef
  set fsSeg : List Char := if p.fragment = [] then [] else '#' :: p.fragment with hfsdef
  set L1 : List Char := p.path ++ (qsSeg ++ fsSeg) with hL1def
  have hqsafe : noUnsafe qsSeg := by
    rw [hqsdef]
    by_cases h : p.query = []
    · rw [if_pos h]
      exact noUnsafe_nil
    · rw [if_neg h]
      exact noUnsafe_cons '?' p.query (by decide) huq
  have hfsafe : noUnsafe fsSeg := by
    rw [hfsdef]
    by_cases h : p.fragment = []
    · rw [if_pos h]
      exact noUnsafe_nil
    · rw [if_neg h]
      exact noUnsafe_cons '#' p.fragment (by decide) huf
  have hL1safe : noUnsafe L1 := by
    rw [hL1def]
    exact noUnsafe_append _ _ hup (noUnsafe_append _ _ hqsafe hfsafe)
  have hL1shape : L1 = [] ∨ ∃ c cs, L1 = c :: cs ∧ isNetlocChar c = false := by
    rw [hL1def]
    rcases hph with hp0 | hp0
    · rw [hp0, List.nil_append]
      by_cases h2 : p.query = []
      · rw [hqsdef, if_pos h2, List.nil_append]
        by_cases h3 : p.fragment = []
        · rw [hfsdef, if_pos h3]
          exact Or.inl rfl
        · rw [hfsdef, if_neg h3]
          exact Or.inr ⟨'#', p.fragment, rfl, by decide⟩
      · rw [hqsdef, if_neg h2, List.cons_append]
        exact Or.inr ⟨'?', p.query ++ fsSeg, rfl, by decide⟩
    · cases hcase : p.path with
      | nil => rw [hcase] at hp0; cases hp0
      | cons c cs =>
        rw [hcase] at hp0
        have : c = '/' := by
          simp at hp0
          exact hp0
        subst this
        rw [List.cons_append]
        exact Or.inr ⟨'/', cs ++ (qsSeg ++ fsSeg), rfl, by decide⟩
  have hnet : splitNetloc ('/' :: '/' :: (p.netloc ++ L1)) = some (p.netloc, L1) :=
    splitNetloc_mk p.netloc L1 hnlc hL1shape hbr
  have hfq : splitAtFirst '#' L1 = (p.path ++ qsSeg, p.fragment) := by
    have hnm : '#' ∉ p.path ++ qsSeg := by
      intro hm
      rcases List.mem_append.mp hm with h | h
      · exact hpf h
      · rw [hqsdef] at h
        by_cases h2 : p.query = []
        · rw [if_pos h2] at h
          cases h
        · rw [if_neg h2] at h
          rcases List.mem_cons.mp h with h3 | h4
          · cases h3
          · exact hqf h4
    by_cases h3 : p.fragment = []
    · rw [hL1def, hfsdef, if_pos h3, List.append_nil,
        splitAtFirst_of_not_mem '#' _ hnm, h3]
    · rw [hL1def, hfsdef, if_neg h3, ← List.append_assoc,
        splitAtFirst_append '#' _ _ hnm]
  have hpq2 : splitAtFirst '?' (p.path ++ qsSeg) = (p.path, p.query) := by
    by_cases h2 : p.query = []
    · rw [hqsdef, if_pos h2, List.append_nil, splitAtFirst_of_not_mem '?' _ hpq, h2]
    · rw [hqsdef, if_neg h2, splitAtFirst_append '?' _ _ hpq]
  have key : ∀ u : List Char, preprocessUrl u = u →
      splitScheme u = (p.scheme, '/' :: '/' :: (p.netloc ++ L1)) → urlsplit u = .ok p := by
    intro u h1 h2
    unfold urlsplit
    rw [h1, h2]
    simp only [hnet, hfq, hpq2]
  rw [hshape]
  by_cases hsch : p.scheme = []
  · rw [if_pos hsch]
    apply key
    · apply preprocessUrl_eq_self
      · exact Or.inr ⟨'/', _, rfl, by decide⟩
      · exact noUnsafe_cons '/' _ (by decide) (noUnsafe_cons '/' _ (by decide)
          (noUnsafe_append _ _ hun hL1safe))
    · rw [hsch]
      exact splitScheme_head_bad '/' _ (by decide)
  · rw [if_neg hsch]
    rcases hs with h | ⟨hv, hlow⟩
    · exact absurd h hsch
    obtain ⟨hall, c, cs, hceq, hca⟩ := schemeValidPre_facts p.scheme hv
    obtain ⟨_, _, _, _, _, hssafe⟩ := schemeValidPre_not_mem p.scheme hv
    apply key
    · apply preprocessUrl_eq_self
      · rw [hceq, List.cons_append]
        exact Or.inr ⟨c, _, rfl, isAsciiAlpha_gt32 c hca⟩
      · exact noUnsafe_append _ _ hssafe (noUnsafe_cons ':' _ (by decide)
          (noUnsafe_cons '/' _ (by decide) (noUnsafe_cons '/' _ (by decide)
            (noUnsafe_append _ _ hun hL1safe))))
    · exact splitScheme_valid p.scheme _ hv hlow

theorem splitScheme_good (x : List Char) : GoodScheme (splitScheme x).1 := by
  rw [splitScheme]
  cases hsp : splitOnFirst ':' x with
  | none => exact Or.inl rfl
  | some ab =>
    obtain ⟨pre, post⟩ := ab
    show GoodScheme
      (if schemeValidPre pre = true then (List.map lowerChar pre, post) else ([], x)).1
    by_cases hv : schemeValidPre pre = true
    · rw [if_pos hv]
      refine Or.inr ⟨?_, ?_⟩
      · obtain ⟨hall, c, cs, hceq, hca⟩ := schemeValidPre_facts pre hv
        subst hceq
        rw [List.map_cons]
        show (isAsciiAlpha (lowerChar c) &&
          (lowerChar c :: cs.map lowerChar).all isSchemeChar) = true
        rw [isAsciiAlpha_lowerChar c hca]
        rw [show (lowerChar c :: cs.map lowerChar) = (c :: cs).map lowerChar from rfl]
        rw [List.all_map]
        simp only [Bool.true_and]
        rw [List.all_eq_true]
        intro d hd
        exact isSchemeChar_lowerChar d (hall d hd)
      · show ((pre.map lowerChar).map lowerChar) = pre.map lowerChar
        rw [List.map_map]
        exact List.map_congr_left fun d _ => lowerChar_lowerChar d
    · rw [if_neg hv]
      exact Or.inl rfl

theorem splitScheme_snd_sub (x : List Char) : ∀ c ∈ (splitScheme x).2, c ∈ x := by
  rw [splitScheme]
  cases hsp : splitOnFirst ':' x with
  | none => exact fun c hc => hc
  | some ab =>
    obtain ⟨pre, post⟩ := ab
    obtain ⟨heq, _⟩ := splitOnFirst_some ':' x pre post hsp
    show ∀ c ∈
      (if schemeValidPre pre = true then (List.map lowerChar pre, post) else ([], x)).2, c ∈ x
    by_cases hv : schemeValidPre pre = true
    · rw [if_pos hv]
      intro c hc
      rw [heq]
      exact List.mem_append_right _ (List.mem_cons_of_mem _ hc)
    · rw [if_neg hv]
      exact fun c hc => hc

theorem splitAtFirst_fst_not_mem (t : Char) (l : List Char) : t ∉ (splitAtFirst t l).1 := by
  rw [splitAtFirst]
  cases hsp : splitOnFirst t l with
  | none => exact splitOnFirst_none t l hsp
  | some ab =>
    obtain ⟨a, b⟩ := ab
    exact (splitOnFirst_some t l a b hsp).2

theorem splitAtFirst_sub (t : Char) (l : List Char) :
    (∀ c ∈ (splitAtFirst t l).1, c ∈ l) ∧ ∀ c ∈ (splitAtFirst t l).2, c ∈ l := by
  rw [splitAtFirst]
  cases hsp : splitOnFirst t l with
  | none => exact ⟨fun c hc => hc, fun c hc => by cases hc⟩
  | some ab =>
    obtain ⟨a, b⟩ := ab
    obtain ⟨heq, _⟩ := splitOnFirst_some t l a b hsp
    constructor
    · intro c hc
      rw [heq]
      exact List.mem_append_left _ hc
    · intro c hc
      rw [heq]
      exact List.mem_append_right _ (List.mem_cons_of_mem _ hc)

theorem splitAtFirst_head (t : Char) (l : List Char) :
    (splitAtFirst t l).1 = [] ∨ (splitAtFirst t l).1.head? = l.head? := by
  rw [splitAtFirst]
  cases hsp : splitOnFirst t l with
  | none => exact Or.inr rfl
  | some ab =>
    obtain ⟨a, b⟩ := ab
    obtain ⟨heq, _⟩ := splitOnFirst_some t l a b hsp
    cases a with
    | nil => exact Or.inl rfl
    | cons x xs =>
      refine Or.inr ?_
      rw [heq]
      rfl

theorem isNetlocChar_false (c : Char) (h : isNetlocChar c = false) :
    c = '/' ∨ c = '?' ∨ c = '#' := by
  rw [isNetlocChar] at h
  simp only [Bool.not_eq_false', Bool.or_eq_true, decide_eq_true_eq] at h
  tauto

theorem splitNetloc_facts (r nl r2 : List Char) (h : splitNetloc r = some (nl, r2)) :
    (∀ c ∈ nl, isNetlocChar c = true) ∧ ((nl.contains '[') = (nl.contains ']')) ∧
    (nl ≠ [] → r2 = [] ∨ ∃ c cs, r2 = c :: cs ∧ isNetlocChar c = false) ∧
    (∀ c ∈ nl, c ∈ r) ∧ (∀ c ∈ r2, c ∈ r) := by
  unfold splitNetloc at h
  split at h
  · rename_i r3
    split at h
    · rename_i hbr
      injection h with h2
      have ha : nl = r3.takeWhile isNetlocChar := (congrArg Prod.fst h2).symm
      have hb : r2 = r3.dropWhile isNetlocChar := (congrArg Prod.snd h2).symm
      subst ha
      subst hb
      refine ⟨fun c hc => List.mem_takeWhile_imp hc, hbr, ?_, ?_, ?_⟩
      · intro _
        exact dropWhile_shape isNetlocChar r3
      · intro c hc
        exact List.mem_cons_of_mem _ (List.mem_cons_of_mem _
          ((List.takeWhile_sublist isNetlocChar).mem hc))
      · intro c hc
        exact List.mem_cons_of_mem _ (List.mem_cons_of_mem _
          ((List.dropWhile_sublist isNetlocChar).mem hc))
    · cases h
  · injection h with h2
    have ha : nl = [] := (congrArg Prod.fst h2).symm
    have hb : r2 = r := (congrArg Prod.snd h2).symm
    subst ha
    subst hb
    exact ⟨fun c hc => absurd hc (List.not_mem_nil c), rfl, fun hne => absurd rfl hne,
      fun c hc => absurd hc (List.not_mem_nil c), fun c hc => hc⟩

theorem preprocessUrl_noUnsafe (u : List Char) : noUnsafe (preprocessUrl u) := by
  intro c hc
  rw [preprocessUrl] at hc
  have := List.of_mem_filter hc
  simp only [Bool.not_eq_true', Bool.or_eq_false_iff, decide_eq_false_iff_not] at this
  exact ⟨this.1.1, this.1.2, this.2⟩

theorem urlsplit_ok_good (u : List Char) (p : UrlParts) (h : urlsplit u = .ok p) :
    GoodScheme p.scheme ∧
    (∀ c ∈ p.netloc, isNetlocChar c = true) ∧
    ((p.netloc.contains '[') = (p.netloc.contains ']')) ∧
    (p.netloc ≠ [] → p.path = [] ∨ p.path.head? = some '/') ∧
    '#' ∉ p.path ∧ '?' ∉ p.path ∧ '#' ∉ p.query ∧
    noUnsafe p.netloc ∧ noUnsafe p.path ∧ noUnsafe p.query ∧ noUnsafe p.fragment := by
  simp only [urlsplit] at h
  cases hsn : splitNetloc (splitScheme (preprocessUrl u)).2 with
  | none => rw [hsn] at h; cases h
  | some nlr2 =>
    obtain ⟨nl, r2⟩ := nlr2
    rw [hsn] at h
    cases h
    obtain ⟨b1, b2, b3, bm1, bm2⟩ :=
      splitNetloc_facts (splitScheme (preprocessUrl u)).2 nl r2 hsn
    have hmem : ∀ c : Char, c ∈ (splitScheme (preprocessUrl u)).2 → c ∈ preprocessUrl u :=
      splitScheme_snd_sub (preprocessUrl u)
    have hsafe : ∀ l : List Char, (∀ c ∈ l, c ∈ r2) → noUnsafe l := by
      intro l hl c hc
      exact preprocessUrl_noUnsafe u c (hmem c (bm2 c (hl c hc)))
    have hfq1r2 : ∀ c ∈ (splitAtFirst '#' r2).1, c ∈ r2 := (splitAtFirst_sub '#' r2).1
    have hfq2r2 : ∀ c ∈ (splitAtFirst '#' r2).2, c ∈ r2 := (splitAtFirst_sub '#' r2).2
    have hpq1 : ∀ c ∈ (splitAtFirst '?' (splitAtFirst '#' r2).1).1,
        c ∈ (splitAtFirst '#' r2).1 := (splitAtFirst_sub '?' _).1
    have hpq2m : ∀ c ∈ (splitAtFirst '?' (splitAtFirst '#' r2).1).2,
        c ∈ (splitAtFirst '#' r2).1 := (splitAtFirst_sub '?' _).2
    refine ⟨splitScheme_good _, b1, b2, ?_, ?_, ?_, ?_, ?_, ?_, ?_, ?_⟩
    · intro hne
      rcases b3 hne with hr2nil | ⟨c, cs, hr2eq, hnc⟩
      · subst hr2nil
        exact Or.inl rfl
      · subst hr2eq
        rcases isNetlocChar_false c hnc with hc | hc | hc
        · subst hc
          rcases splitAtFirst_head '#' ('/' :: cs) with h1 | h1
          · rw [h1]
            exact Or.inl rfl
          · rcases splitAtFirst_head '?' (splitAtFirst '#' ('/' :: cs)).1 with h2 | h2
            · exact Or.inl h2
            · exact Or.inr (h2.trans h1)
        · subst hc
          rcases splitAtFirst_head '#' ('?' :: cs) with h1 | h1
          · rw [h1]
            exact Or.inl rfl
          · cases hfq : (splitAtFirst '#' ('?' :: cs)).1 with
            | nil =>
              exact Or.inl rfl
            | cons x xs =>
              have hx : x = '?' := by
                rw [hfq] at h1
                simpa using h1
              subst hx
              exact Or.inl rfl
        · subst hc
          have : splitAtFirst '#' ('#' :: cs) = ([], cs) := rfl
          rw [this]
          exact Or.inl rfl
    · intro hm
      exact splitAtFirst_fst_not_mem '#' r2 (hpq1 '#' hm)
    · exact splitAtFirst_fst_not_mem '?' _
    · intro hm
      exact splitAtFirst_fst_not_mem '#' r2 (hpq2m '#' hm)
    · intro c hc
      exact preprocessUrl_noUnsafe u c (hmem c (bm1 c hc))
    · exact hsafe _ (fun c hc => hfq1r2 c (hpq1 c hc))
    · exact hsafe _ (fun c hc => hfq1r2 c (hpq2m c hc))
    · exact hsafe _ hfq2r2

theorem containsSub_single (t : Char) (l : List Char) : containsSub [t] l = true ↔ t ∈ l := by
  induction l with
  | nil => simp [containsSub]
  | cons c cs ih =>
    rw [containsSub, isPrefixL]
    simp only [Bool.or_eq_true, Bool.and_eq_true, decide_eq_true_eq, ih, List.mem_cons]
    constructor
    · intro h
      rcases h with ⟨h1, _⟩ | h2
      · exact Or.inl h1
      · exact Or.inr h2
    · intro h
      rcases h with h1 | h2
      · exact Or.inl ⟨h1, rfl⟩
      · exact Or.inr h2

theorem urlunsplit_shape (p : UrlParts) (hnl : p.netloc ≠ [])
    (hph : p.path = [] ∨ p.path.head? = some '/') :
    urlunsplit p =
      (if p.scheme = [] then [] else p.scheme ++ [':']) ++
      ('/' :: '/' :: (p.netloc ++ (p.path ++
        ((if p.query = [] then [] else '?' :: p.query) ++
         (if p.fragment = [] then [] else '#' :: p.fragment))))) := by
  have hinner : (if p.path ≠ [] ∧ p.path.head? ≠ some '/' then '/' :: p.path else p.path)
      = p.path := by
    rcases hph with h | h
    · rw [if_neg]
      simp [h]
    · rw [if_neg]
      simp [h]
  by_cases h1 : p.scheme = [] <;> by_cases h2 : p.query = [] <;>
    by_cases h3 : p.fragment = [] <;>
    simp only [urlunsplit, if_pos (Or.inl hnl), hinner, h1, h2, h3, if_pos, if_neg,
      ite_true, ite_false, if_true, if_false, ne_eq, not_true_eq_false, not_false_eq_true,
      List.append_nil, List.cons_append, List.append_assoc, List.nil_append]

theorem query_of_cleanQuery_facts (q : List Char) (hq : '#' ∉ q) (hsafe : noUnsafe q) :
    '#' ∉ urlencode (cleanQuery q) ∧ noUnsafe (urlencode (cleanQuery q)) := by
  constructor
  · intro hm
    rcases urlencode_cleanQuery_chars q '#' hm with h | h | h
    · exact hq h
    · cases h
    · cases h
  · intro c hc
    rcases urlencode_cleanQuery_chars q c hc with h | h | h
    · exact hsafe c h
    · rw [h]
      exact ⟨by decide, by decide, by decide⟩
    · rw [h]
      exact ⟨by decide, by decide, by decide⟩

theorem clean_url_ok (u : List Char) (p : UrlParts) (hp : urlsplit u = .ok p) :
    clean_url u = .ok (urlunsplit { p with query := urlencode (cleanQuery p.query) }) := by
  rw [clean_url, hp]

theorem clean_url_roundtrip (u : List Char) (p : UrlParts) (hp : urlsplit u = .ok p)
    (hnl : p.netloc ≠ []) :
    urlsplit (urlunsplit { p with query := urlencode (cleanQuery p.query) }) =
      .ok { p with query := urlencode (cleanQuery p.query) } := by
  obtain ⟨g1, g2, g3, g4, g5, g6, g7, g8, g9, g10, g11⟩ := urlsplit_ok_good u p hp
  obtain ⟨q1, q2⟩ := query_of_cleanQuery_facts p.query g7 g10
  exact urlsplit_urlunsplit { p with query := urlencode (cleanQuery p.query) }
    hnl g1 g2 g3 (g4 hnl) g5 g6 q1 g8 g9 q2 g11

theorem question_mem_urlunsplit (p : UrlParts) (hnl : p.netloc ≠ [])
    (hs : GoodScheme p.scheme) (hnlc : ∀ c ∈ p.netloc, isNetlocChar c = true)
    (hph : p.path = [] ∨ p.path.head? = some '/') (hpq : '?' ∉ p.path)
    (hf : p.fragment = []) :
    '?' ∈ urlunsplit p ↔ p.query ≠ [] := by
  rw [urlunsplit_shape p hnl hph, hf]
  constructor
  · intro hm hqnil
    rw [hqnil] at hm
    simp only [if_pos rfl, List.append_nil] at hm
    rcases List.mem_append.mp hm with h1 | h2
    · by_cases hsch : p.scheme = []
      · rw [if_pos hsch] at h1
        cases h1
      · rw [if_neg hsch] at h1
        rcases hs with h3 | ⟨h3, _⟩
        · exact hsch h3
        · rcases List.mem_append.mp h1 with h4 | h5
          · exact (schemeValidPre_not_mem p.scheme h3).2.2.1 h4
          · cases List.mem_singleton.mp h5
    · rcases List.mem_cons.mp h2 with h3 | h4
      · cases h3
      · rcases List.mem_cons.mp h4 with h5 | h6
        · cases h5
        · rcases List.mem_append.mp h6 with h7 | h8
          · have := hnlc '?' h7
            simp [isNetlocChar] at this
          · rcases List.mem_append.mp h8 with h9 | h10
            · exact hpq h9
            · rcases List.mem_append.mp h10 with h11 | h12
              · cases h11
              · cases h12
  · intro hq
    rw [if_neg hq]
    refine List.mem_append_right _ ?_
    refine List.mem_cons_of_mem _ (List.mem_cons_of_mem _ (List.mem_append_right _ ?_))
    refine List.mem_append_right _ (List.mem_append_left _ ?_)
    exact List.mem_cons_self _ _

theorem parse_qsl_tagseq (t : List Char) (h : '&' ∉ t) :
    parse_qsl ("tag=".data ++ t) =
      if t = [] then [] else [("tag".data, t)] := by
  have hseq : ("tag=".data ++ t) = "tag".data ++ '=' :: t := rfl
  by_cases ht : t = []
  · rw [if_pos ht, ht] at *
    rfl
  · rw [if_neg ht, hseq]
    apply parse_qsl_single
    · decide
    · exact ht
    · intro hm
      rcases List.mem_append.mp hm with h1 | h2
      · revert h1
        decide
      · rcases List.mem_cons.mp h2 with h3 | h4
        · cases h3
        · exact h h4

theorem cleanQuery_tagseq (t : List Char) (h : '&' ∉ t) :
    cleanQuery ("tag=".data ++ t) = [] := by
  rw [cleanQuery, parse_qs, parse_qsl_tagseq t h]
  by_cases ht : t = []
  · rw [if_pos ht]
    rfl
  · rw [if_neg ht]
    show (groupInsert "tag".data t []).filter (fun kv => !(bad_keys.contains kv.1)) = []
    rw [groupInsert, List.filter_cons]
    simp
    decide

theorem cleanQuery_filter_self (q : List Char) :
    (cleanQuery q).filter (fun kv => !(bad_keys.contains kv.1)) = cleanQuery q := by
  rw [List.filter_eq_self]
  intro kv hkv
  exact (List.mem_filter.mp hkv).2

theorem tag_not_in_cleanQuery_keys (q : List Char) : "tag".data ∉ keysOf (cleanQuery q) := by
  intro hm
  obtain ⟨kv, hkv, hfst⟩ := List.mem_map.mp hm
  have := cleanQuery_keys_good q kv hkv
  rw [hfst] at this
  exact this (by decide)

theorem parse_qsl_urlencode_cleanQuery (q : List Char) :
    parse_qsl (urlencode (cleanQuery q)) = flatPairs (cleanQuery q) := by
  rw [urlencode_eq_segJoin]
  apply parse_qsl_segJoin
  intro kv hm
  obtain ⟨vs, hvs, hv⟩ := flatPairs_mem _ kv hm
  obtain ⟨h1, h2, _, h4⟩ := (cleanQuery_wf q).2 (kv.1, vs) hvs
  exact ⟨h1, h2, (h4 kv.2 hv).1, (h4 kv.2 hv).2⟩

theorem foldl_flatPairs_cleanQuery (q : List Char) :
    List.foldl (fun acc kv => groupInsert kv.1 kv.2 acc) [] (flatPairs (cleanQuery q)) =
      cleanQuery q := by
  have := foldl_groupInsert_flat (cleanQuery q) [] (by simp [keysOf])
    (cleanQuery_wf q).1 (fun kv hm => ((cleanQuery_wf q).2 kv hm).2.2.1)
  simpa using this

theorem cleanQuery_append_tagseq (q t : List Char) (h : '&' ∉ t) :
    cleanQuery (urlencode (cleanQuery q) ++ '&' :: ("tag=".data ++ t)) = cleanQuery q := by
  rw [cleanQuery, parse_qs, parse_qsl_append, parse_qsl_urlencode_cleanQuery,
    parse_qsl_tagseq t h, List.foldl_append, foldl_flatPairs_cleanQuery]
  by_cases ht : t = []
  · rw [if_pos ht, List.foldl_nil]
    exact cleanQuery_filter_self q
  · rw [if_neg ht, List.foldl_cons, List.foldl_nil]
    rw [show groupInsert (("tag".data, t) : List Char × List Char).1
        (("tag".data, t) : List Char × List Char).2 (cleanQuery q) =
      cleanQuery q ++ [("tag".data, [t])] from
      groupInsert_not_mem _ _ _ (tag_not_in_cleanQuery_keys q)]
    rw [List.filter_append, cleanQuery_filter_self]
    have hz : List.filter (fun kv => !(bad_keys.contains kv.1))
        [(("tag".data : List Char), [t])] = [] := by
      rw [List.filter_cons]
      simp
      decide
    rw [hz, List.append_nil]

theorem urlunsplit_query_add (p : UrlParts) (hnl : p.netloc ≠ [])
    (hph : p.path = [] ∨ p.path.head? = some '/') (hf : p.fragment = [])
    (τ : List Char) (hτ : τ ≠ []) (hq : p.query = []) :
    urlunsplit p ++ '?' :: τ = urlunsplit { p with query := τ } := by
  rw [urlunsplit_shape p hnl hph, urlunsplit_shape { p with query := τ } hnl hph]
  simp [hq, hf, hτ, List.append_assoc]

theorem urlunsplit_query_amp (p : UrlParts) (hnl : p.netloc ≠ [])
    (hph : p.path = [] ∨ p.path.head? = some '/') (hf : p.fragment = [])
    (τ : List Char) (hq : p.query ≠ []) :
    urlunsplit p ++ '&' :: τ = urlunsplit { p with query := p.query ++ '&' :: τ } := by
  rw [urlunsplit_shape p hnl hph, urlunsplit_shape { p with query := p.query ++ '&' :: τ } hnl hph]
  have hne : p.query ++ '&' :: τ ≠ [] := by
    intro hx
    exact hq (List.append_eq_nil.mp hx).1
  simp [hq, hf, hne, List.append_assoc]

theorem tagseq_noHash (t : List Char) (h : '#' ∉ t) : '#' ∉ "tag=".data ++ t := by
  intro hm
  rcases List.mem_append.mp hm with h1 | h2
  · revert h1
    decide
  · exact h h2

theorem tagseq_noUnsafe (t : List Char) (h : noUnsafe t) : noUnsafe ("tag=".data ++ t) := by
  refine noUnsafe_append _ _ ?_ h
  intro c hc
  fin_cases hc <;> exact ⟨by decide, by decide, by decide⟩

theorem set_query_eq (p : UrlParts) (q : List Char) (h : p.query = q) :
    ({ p with query := q } : UrlParts) = p := by
  cases p
  cases h
  rfl

theorem set_query_twice (p : UrlParts) (a b : List Char) :
    ({ { p with query := a } with query := b } : UrlParts) = { p with query := b } := rfl

theorem add_affiliate_stable (tags : List (List Char × List Char)) (u f : List Char)
    (p : UrlParts) (hp : urlsplit u = .ok p) (hnl : p.netloc ≠ []) (hfr : p.fragment = [])
    (h1 : add_affiliate tags u = .ok f)
    (h2 : findTag tags f = findTag tags u)
    (h3 : ∀ dt : List Char × List Char, findTag tags u = some dt →
      '&' ∉ dt.2 ∧ '#' ∉ dt.2 ∧ noUnsafe dt.2) :
    add_affiliate tags f = .ok f := by
  obtain ⟨g1, g2, g3, g4, g5, g6, g7, g8, g9, g10, g11⟩ := urlsplit_ok_good u p hp
  obtain ⟨qh1, qh2⟩ := query_of_cleanQuery_facts p.query g7 g10
  set pb : UrlParts := { p with query := urlencode (cleanQuery p.query) } with hpbdef
  have hbase : clean_url u = .ok (urlunsplit pb) := clean_url_ok u p hp
  have hrt : urlsplit (urlunsplit pb) = .ok pb := clean_url_roundtrip u p hp hnl
  have hpbq : cleanQuery pb.query = cleanQuery p.query := cleanQuery_stable p.query
  have hpbfix : { pb with query := urlencode (cleanQuery pb.query) } = pb := by
    rw [hpbq]
  cases hft : findTag tags u with
  | none =>
    simp only [add_affiliate, hft, hbase] at h1
    have hfeq : f = urlunsplit pb := by
      injection h1 with h1'
      exact h1'.symm
    subst hfeq
    simp only [add_affiliate, h2, hft]
    have h0 := clean_url_ok (urlunsplit pb) pb hrt
    rw [h0, hpbfix]
  | some dt =>
    obtain ⟨d, t⟩ := dt
    obtain ⟨ht1, ht2, ht3⟩ := h3 (d, t) hft
    simp only [add_affiliate, hft, hbase] at h1
    have hQ : containsSub ['?'] (urlunsplit pb) = true ↔ urlencode (cleanQuery p.query) ≠ [] := by
      rw [containsSub_single]
      exact question_mem_urlunsplit pb hnl g1 g2 (g4 hnl) g6 hfr
    by_cases hq1 : urlencode (cleanQuery p.query) = []
    · have hsep : containsSub ['?'] (urlunsplit pb) = false := by
        cases hcs : containsSub ['?'] (urlunsplit pb) with
        | true => exact absurd hq1 (hQ.mp hcs)
        | false => rfl
      rw [hsep] at h1
      simp only [Bool.false_eq_true, if_false, ite_false] at h1
      have hfeq : f = urlunsplit pb ++ '?' :: ("tag=".data ++ t) := by
        injection h1 with h1'
        exact h1'.symm
      have hpbq0 : pb.query = [] := hq1
      have hf2 : f = urlunsplit { pb with query := "tag=".data ++ t } := by
        rw [hfeq]
        exact urlunsplit_query_add pb hnl (g4 hnl) hfr _ (by simp) hpbq0
      have hsplitf : urlsplit f = .ok { pb with query := "tag=".data ++ t } := by
        rw [hf2]
        exact urlsplit_urlunsplit _ hnl g1 g2 g3 (g4 hnl) g5 g6
          (tagseq_noHash t ht2) g8 g9 (tagseq_noUnsafe t ht3) g11
      have hcleanf : clean_url f = .ok (urlunsplit pb) := by
        have h0 := clean_url_ok f { pb with query := "tag=".data ++ t } hsplitf
        rw [show ({ pb with query := "tag=".data ++ t } : UrlParts).query = "tag=".data ++ t
          from rfl] at h0
        rw [cleanQuery_tagseq t ht1] at h0
        rw [show urlencode [] = [] from rfl] at h0
        rw [set_query_twice pb ("tag=".data ++ t) []] at h0
        rw [set_query_eq pb [] hpbq0] at h0
        exact h0
      simp only [add_affiliate, h2, hft, hcleanf, hsep, Bool.false_eq_true, if_false, ite_false]
      rw [hfeq]
    · have hsep : containsSub ['?'] (urlunsplit pb) = true := hQ.mpr hq1
      rw [hsep] at h1
      simp only [if_true, ite_true] at h1
      have hfeq : f = urlunsplit pb ++ '&' :: ("tag=".data ++ t) := by
        injection h1 with h1'
        exact h1'.symm
      have hf2 : f = urlunsplit { pb with query := pb.query ++ '&' :: ("tag=".data ++ t) } := by
        rw [hfeq]
        exact urlunsplit_query_amp pb hnl (g4 hnl) hfr _ hq1
      have hq2hash : '#' ∉ pb.query ++ '&' :: ("tag=".data ++ t) := by
        intro hm
        rcases List.mem_append.mp hm with hx | hx
        · exact qh1 hx
        · rcases List.mem_cons.mp hx with hy | hy
          · cases hy
          · exact tagseq_noHash t ht2 hy
      have hq2safe : noUnsafe (pb.query ++ '&' :: ("tag=".data ++ t)) :=
        noUnsafe_append _ _ qh2 (noUnsafe_cons '&' _ (by decide) (tagseq_noUnsafe t ht3))
      have hsplitf : urlsplit f = .ok { pb with query := pb.query ++ '&' :: ("tag=".data ++ t) } := by
        rw [hf2]
        exact urlsplit_urlunsplit _ hnl g1 g2 g3 (g4 hnl) g5 g6 hq2hash g8 g9 hq2safe g11
      have hcleanf : clean_url f = .ok (urlunsplit pb) := by
        have h0 := clean_url_ok f { pb with query := pb.query ++ '&' :: ("tag=".data ++ t) }
          hsplitf
        rw [show ({ pb with query := pb.query ++ '&' :: ("tag=".data ++ t) } : UrlParts).query
          = urlencode (cleanQuery p.query) ++ '&' :: ("tag=".data ++ t) from rfl] at h0
        rw [cleanQuery_append_tagseq p.query t ht1] at h0
        rw [set_query_twice pb (pb.query ++ '&' :: ("tag=".data ++ t))
          (urlencode (cleanQuery p.query))] at h0
        rw [set_query_eq pb (urlencode (cleanQuery p.query)) rfl] at h0
        exact h0
      simp only [add_affiliate, h2, hft, hcleanf, hsep, if_true, ite_true]
      rw [hfeq]

/-! ## The claims -/

/-- C1 counterexample: on a URL matching no affiliate rule but carrying a
`utm_source` parameter, `process_link` strips the parameter, so `final`
differs from `resolved` and `is_affiliate` is `true` — the URL is not left
untouched and the flag is set without any rule having matched.  (The
pipeline's `ProcessedLink` model has no `network` field at all.) -/
theorem C1_counterexample :
    findTag [("amazon.com".data, "new-20".data)]
      (resolve_url (fun u => some u) "https://other.com/p?utm_source=x".data) = none ∧
    process_link [("amazon.com".data, "new-20".data)] (fun u => some u)
      "dealsite.com".data "https://other.com/p?utm_source=x".data =
      .ok ⟨"https://other.com/p?utm_source=x".data, "https://other.com/p?utm_source=x".data,
        "https://other.com/p".data, true⟩ :=
  ⟨rfl, rfl⟩

/-- C1 (amended): when the resolved URL matches no affiliate rule, does not
contain the feed domain, is left unchanged by `clean_url` (no tracking
parameters to strip), and the original and resolved URLs pass pydantic
`HttpUrl` validation, `process_link` returns the link untouched with
`is_affiliate = false`. -/
theorem C1_amended (tags : List (List Char × List Char))
    (net : List Char → Option (List Char)) (rss_domain u : List Char)
    (hft : findTag tags (resolve_url net u) = none)
    (hcl : clean_url (resolve_url net u) = .ok (resolve_url net u))
    (hdom : containsSub rss_domain (resolve_url net u) = false)
    (hvu : http_url_ok u = true)
    (hvr : http_url_ok (resolve_url net u) = true) :
    process_link tags net rss_domain u =
      .ok ⟨u, resolve_url net u, resolve_url net u, false⟩ := by
  simp only [process_link, hdom, Bool.false_eq_true, if_false]
  simp only [add_affiliate, hft, hcl]
  simp only [mkProcessedLink, hvu, hvr]
  simp

/-- C1 witness: the amended theorem applied to a clean non-matching URL. -/
theorem C1_amended_witness :
    findTag [("amazon.com".data, "new-20".data)]
      (resolve_url (fun u => some u) "https://other.com/p".data) = none ∧
    clean_url (resolve_url (fun u => some u) "https://other.com/p".data) =
      .ok (resolve_url (fun u => some u) "https://other.com/p".data) ∧
    containsSub "dealsite.com".data
      (resolve_url (fun u => some u) "https://other.com/p".data) = false ∧
    http_url_ok "https://other.com/p".data = true ∧
    http_url_ok (resolve_url (fun u => some u) "https://other.com/p".data) = true ∧
    process_link [("amazon.com".data, "new-20".data)] (fun u => some u)
      "dealsite.com".data "https://other.com/p".data =
      .ok ⟨"https://other.com/p".data,
        resolve_url (fun u => some u) "https://other.com/p".data,
        resolve_url (fun u => some u) "https://other.com/p".data, false⟩ :=
  ⟨rfl, rfl, rfl, rfl, rfl, C1_amended _ _ _ _ rfl rfl rfl rfl rfl⟩

/-- C2: on `https://amazon.com/dp/X?tag=old-20&ref=xyz` with the rule
`amazon.com -> new-20`, the produced `ProcessedLink` keeps the input as
`original`, its `final` contains `tag=new-20` and contains neither `ref`
nor the old tag value, and `is_affiliate` is `true`. -/
theorem C2_confirmed :
    process_link [("amazon.com".data, "new-20".data), ("amazon.ca".data, "new-ca-20".data)]
      (fun u => some u) "dealsite.com".data
      "https://amazon.com/dp/X?tag=old-20&ref=xyz".data =
      .ok ⟨"https://amazon.com/dp/X?tag=old-20&ref=xyz".data,
        "https://amazon.com/dp/X?tag=old-20&ref=xyz".data,
        "https://amazon.com/dp/X?tag=new-20".data, true⟩ ∧
    containsSub "tag=new-20".data "https://amazon.com/dp/X?tag=new-20".data = true ∧
    containsSub "ref".data "https://amazon.com/dp/X?tag=new-20".data = false ∧
    containsSub "old-20".data "https://amazon.com/dp/X?tag=new-20".data = false :=
  ⟨rfl, rfl, rfl, rfl⟩

/-- C3 counterexample: a self-referential anchor (its URL contains the feed
domain) is not discarded during extraction: `scrape_feed` emits it as a
`ProcessedLink` of the item, merely with `is_affiliate = false`. -/
theorem C3_counterexample :
    scrape_feed [] (fun u => some u)
      (fun _ => ["https://dealsite.com/other".data])
      (fun _ => [⟨"t".data, "https://dealsite.com/post".data⟩])
      "https://dealsite.com/feed".data =
      .ok [⟨"t".data, "https://dealsite.com/post".data,
        [⟨"https://dealsite.com/other".data, "https://dealsite.com/other".data,
          "https://dealsite.com/other".data, false⟩]⟩] ∧
    containsSub "dealsite.com".data "https://dealsite.com/other".data = true :=
  ⟨rfl, rfl⟩

/-- C3 (amended): a link whose resolved URL contains the feed domain is still
emitted — provided the original and resolved URLs pass pydantic `HttpUrl`
validation — passed through untouched with `is_affiliate = false`: the
self-link check only skips affiliate tagging, it does not drop the link
(a self-link failing validation instead aborts the feed). -/
theorem C3_amended (tags : List (List Char × List Char))
    (net : List Char → Option (List Char)) (rss_domain u : List Char)
    (hdom : containsSub rss_domain (resolve_url net u) = true)
    (hvu : http_url_ok u = true)
    (hvr : http_url_ok (resolve_url net u) = true) :
    process_link tags net rss_domain u =
      .ok ⟨u, resolve_url net u, resolve_url net u, false⟩ := by
  simp only [process_link, hdom, if_true]
  simp only [mkProcessedLink, hvu, hvr]
  simp

/-- C3 witness: the amended theorem applied to a self-link. -/
theorem C3_amended_witness :
    containsSub "dealsite.com".data
      (resolve_url (fun u => some u) "https://dealsite.com/other".data) = true ∧
    http_url_ok "https://dealsite.com/other".data = true ∧
    http_url_ok (resolve_url (fun u => some u) "https://dealsite.com/other".data) = true ∧
    process_link [("amazon.com".data, "new-20".data)] (fun u => some u)
      "dealsite.com".data "https://dealsite.com/other".data =
      .ok ⟨"https://dealsite.com/other".data,
        resolve_url (fun u => some u) "https://dealsite.com/other".data,
        resolve_url (fun u => some u) "https://dealsite.com/other".data, false⟩ :=
  ⟨rfl, rfl, rfl, C3_amended _ _ _ _ rfl rfl rfl⟩

/-- C4 counterexample: rewriting is not idempotent.  On
`https://other.com/?ref=amazon.com` the rule `amazon.com` matches (substring
test against the whole URL), `clean_url` drops the `ref` parameter and the
tag is appended; re-running the rewrite on the result no longer matches the
rule, and `clean_url` strips the appended tag, yielding a different URL. -/
theorem C4_counterexample :
    add_affiliate [("amazon.com".data, "new-20".data)]
      "https://other.com/?ref=amazon.com".data =
      .ok "https://other.com/?tag=new-20".data ∧
    add_affiliate [("amazon.com".data, "new-20".data)]
      "https://other.com/?tag=new-20".data =
      .ok "https://other.com/".data ∧
    "https://other.com/".data ≠ "https://other.com/?tag=new-20".data :=
  ⟨rfl, rfl, by decide⟩

/-- C4 (amended): the rewrite is idempotent on URLs with an authority and no
fragment, provided the rewrite does not change which rule matches and the
matched tag value contains no `&`, `#` or whitespace byte: the output of
`add_affiliate` is a fixed point of `add_affiliate`. -/
theorem C4_amended (tags : List (List Char × List Char)) (u f : List Char)
    (p : UrlParts) (hp : urlsplit u = .ok p) (hnl : p.netloc ≠ []) (hfr : p.fragment = [])
    (h1 : add_affiliate tags u = .ok f)
    (h2 : findTag tags f = findTag tags u)
    (h3 : ∀ dt : List Char × List Char, findTag tags u = some dt →
      '&' ∉ dt.2 ∧ '#' ∉ dt.2 ∧ noUnsafe dt.2) :
    add_affiliate tags f = .ok f :=
  add_affiliate_stable tags u f p hp hnl hfr h1 h2 h3

/-- C4 witness: the amended theorem applied to an Amazon product URL. -/
theorem C4_amended_witness :
    add_affiliate [("amazon.com".data, "new-20".data)]
      "https://amazon.com/dp/X?tag=old-20".data =
      .ok "https://amazon.com/dp/X?tag=new-20".data ∧
    add_affiliate [("amazon.com".data, "new-20".data)]
      "https://amazon.com/dp/X?tag=new-20".data =
      .ok "https://amazon.com/dp/X?tag=new-20".data := by
  refine ⟨rfl, ?_⟩
  refine C4_amended [("amazon.com".data, "new-20".data)]
    "https://amazon.com/dp/X?tag=old-20".data
    "https://amazon.com/dp/X?tag=new-20".data
    { scheme := "https".data, netloc := "amazon.com".data, path := "/dp/X".data,
      query := "tag=old-20".data, fragment := [] }
    rfl (by decide) rfl rfl rfl ?_
  intro dt h
  rw [show findTag [("amazon.com".data, "new-20".data)]
      "https://amazon.com/dp/X?tag=old-20".data =
      some ("amazon.com".data, "new-20".data) from rfl] at h
  injection h with h2
  subst h2
  exact ⟨by decide, by decide,
    show ∀ c ∈ ("new-20".data : List Char), c.toNat ≠ 9 ∧ c.toNat ≠ 10 ∧ c.toNat ≠ 13
      from by decide⟩

/-- C5 counterexample: the snapshot write is not atomic.  `open(OUTPUT_FILE,
"w")` truncates the file before `json.dump` writes the new contents, so a
reader can observe the empty file, which is neither the old nor the new
snapshot. -/
theorem C5_counterexample : ¬ atomicReplace "[1]" "[2]" :=
  show ¬ ∀ s ∈ snapshotWriteStates "[1]" "[2]", s = "[1]" ∨ s = "[2]" from by decide

/-- C5 (amended): for any non-empty old and new snapshot contents, the write
is non-atomic: the observable states include the truncated empty file, which
equals neither snapshot. -/
theorem C5_amended (oldContent newContent : String)
    (h1 : oldContent ≠ "") (h2 : newContent ≠ "") :
    ¬ atomicReplace oldContent newContent := by
  intro h
  rcases h "" (by simp [snapshotWriteStates]) with h3 | h3
  · exact h1 h3.symm
  · exact h2 h3.symm

/-- C5 witness: the amended theorem applied to two concrete snapshots. -/
theorem C5_amended_witness :
    ("[1]" : String) ≠ "" ∧ ("[2]" : String) ≠ "" ∧ ¬ atomicReplace "[1]" "[2]" :=
  ⟨by decide, by decide, C5_amended "[1]" "[2]" (by decide) (by decide)⟩

/-- C6 counterexample: there is no redirect cache; resolving the same URL
twice issues two identical HTTP requests (the request log has one entry per
link occurrence, not per distinct URL). -/
theorem C6_counterexample :
    resolveRequestLog (fun u => some u) ["https://a.com".data, "https://a.com".data] =
      ["https://a.com".data, "https://a.com".data] ∧
    (["https://a.com".data, "https://a.com".data] : List (List Char)).dedup.length = 1 ∧
    (resolveRequestLog (fun u => some u)
      ["https://a.com".data, "https://a.com".data]).length = 2 :=
  ⟨rfl, by decide, rfl⟩

/-- C6 (amended): `resolve_url` issues exactly one network request per link
occurrence, unconditionally — the request log equals the processed link list
itself, with no deduplication or cache lookup. -/
theorem C6_amended (net : List Char → Option (List Char)) (urls : List (List Char)) :
    resolveRequestLog net urls = urls := by
  induction urls with
  | nil => rfl
  | cons u us ih =>
    rw [resolveRequestLog, ih]
    rfl

/-- C7 counterexample: a malformed URL is not passed through — the uncaught
`ValueError` of `urlparse` (unbalanced bracket in the authority) aborts
`process_link` instead of returning the URL unchanged. -/
theorem C7_counterexample :
    process_link [] (fun u => some u) "dealsite.com".data "http://[bad/x".data =
      .error () :=
  rfl

/-- C7 (amended): an unparsable URL is not a recoverable condition: when the
resolved URL does not contain the feed domain and `urlparse` rejects it, the
`ValueError` raised inside `clean_url` escapes through `add_affiliate` and
`process_link` and aborts the processing of the item and its feed — there is
no pass-through and no `is_affiliate = false` result. -/
theorem C7_amended (tags : List (List Char × List Char))
    (net : List Char → Option (List Char)) (rss_domain u : List Char)
    (hdom : containsSub rss_domain (resolve_url net u) = false)
    (hsp : urlsplit (resolve_url net u) = .error ()) :
    process_link tags net rss_domain u = .error () := by
  simp only [process_link, hdom, Bool.false_eq_true, if_false]
  have hcl : clean_url (resolve_url net u) = .error () := by
    rw [clean_url, hsp]
  cases hft : findTag tags (resolve_url net u) with
  | none => simp [add_affiliate, hft, hcl]
  | some dt => simp [add_affiliate, hft, hcl]

/-- C7 witness: the amended theorem applied to a bracket-imbalanced URL. -/
theorem C7_amended_witness :
    containsSub "dealsite.com".data
      (resolve_url (fun u => some u) "https://[oops/x".data) = false ∧
    urlsplit (resolve_url (fun u => some u) "https://[oops/x".data) = .error () ∧
    process_link [("amazon.com".data, "new-20".data)] (fun u => some u)
      "dealsite.com".data "https://[oops/x".data = .error () :=
  ⟨rfl, rfl, C7_amended [("amazon.com".data, "new-20".data)] _ _ _ rfl rfl⟩

/-- C9: a source whose feed yields no entries (feedparser swallows network
and parse errors and returns an empty entry list) contributes nothing, and
removing it from the source list leaves the run's result unchanged — no
cross-source failure propagation. -/
theorem C9_confirmed (tags : List (List Char × List Char))
    (net : List Char → Option (List Char))
    (anchorsOf : List Char → List (List Char))
    (entriesOf : List Char → List FeedEntry)
    (pre post : List (List Char)) (bad : List Char) (pb : UrlParts)
    (h1 : entriesOf (pyStrip bad) = [])
    (h2 : urlsplit (pyStrip bad) = .ok pb) :
    run_scraper tags net anchorsOf entriesOf (pre ++ bad :: post) =
      run_scraper tags net anchorsOf entriesOf (pre ++ post) ∧
    scrape_feed tags net anchorsOf entriesOf (pyStrip bad) = .ok [] := by
  have hsf : scrape_feed tags net anchorsOf entriesOf (pyStrip bad) = .ok [] := by
    rw [scrape_feed, h2, h1]
    rfl
  refine ⟨?_, hsf⟩
  induction pre with
  | nil =>
    simp only [List.nil_append]
    rw [run_scraper]
    by_cases hb : pyStrip bad = []
    · rw [if_pos hb]
    · rw [if_neg hb, hsf]
      cases hr : run_scraper tags net anchorsOf entriesOf post with
      | error e => rfl
      | ok more => simp
  | cons src rest ih =>
    simp only [List.cons_append]
    rw [run_scraper, run_scraper]
    by_cases hs : pyStrip src = []
    · rw [if_pos hs, if_pos hs]
      exact ih
    · rw [if_neg hs, if_neg hs]
      cases hsrc : scrape_feed tags net anchorsOf entriesOf (pyStrip src) with
      | error e => rfl
      | ok items => rw [ih]

/-- C9 witness: a dead source beside a healthy one. -/
theorem C9_witness :
    urlsplit (pyStrip "https://bad.com/feed".data) =
      .ok { scheme := "https".data, netloc := "bad.com".data,
            path := "/feed".data, query := [], fragment := [] } ∧
    run_scraper [] (fun u => some u) (fun _ => []) (fun _ => [])
      ["https://good.com/feed".data, "https://bad.com/feed".data] =
      run_scraper [] (fun u => some u) (fun _ => []) (fun _ => [])
        ["https://good.com/feed".data] ∧
    scrape_feed [] (fun u => some u) (fun _ => []) (fun _ => [])
      (pyStrip "https://bad.com/feed".data) = .ok [] := by
  refine ⟨rfl, ?_⟩
  exact C9_confirmed [] (fun u => some u) (fun _ => []) (fun _ => [])
    ["https://good.com/feed".data] [] "https://bad.com/feed".data
    { scheme := "https".data, netloc := "bad.com".data, path := "/feed".data,
      query := [], fragment := [] } rfl rfl

/-- C8 counterexample: `clean_url` pops only six fixed keys, not every
`utm_`-prefixed parameter: `utm_term` survives cleaning unchanged. -/
theorem C8_counterexample :
    clean_url "https://x.com/p?utm_term=a".data = .ok "https://x.com/p?utm_term=a".data ∧
    containsSub "utm_term".data "https://x.com/p?utm_term=a".data = true :=
  ⟨rfl, rfl⟩

/-- C8 (amended): cleaning removes exactly the six keys of the fixed
`bad_keys` list (`tag`, `affid`, `ref`, `utm_source`, `utm_medium`,
`utm_campaign`): the cleaned URL's query groups are the original groups with
precisely those keys filtered out, every other parameter kept. -/
theorem C8_amended (u : List Char) (p : UrlParts) (hp : urlsplit u = .ok p) :
    clean_url u = .ok (urlunsplit { p with query := urlencode (cleanQuery p.query) }) ∧
    parse_qs (urlencode (cleanQuery p.query)) =
      (parse_qs p.query).filter (fun kv => !(bad_keys.contains kv.1)) := by
  refine ⟨clean_url_ok u p hp, ?_⟩
  rw [parse_qs_urlencode _ (cleanQuery_wf p.query)]
  rfl

/-- C8 witness: the amended theorem applied to a URL carrying `utm_term` and
`ref`. -/
theorem C8_amended_witness :
    urlsplit "https://x.com/p?utm_term=a&ref=b".data =
      .ok { scheme := "https".data, netloc := "x.com".data,
            path := "/p".data, query := "utm_term=a&ref=b".data, fragment := [] } ∧
    (clean_url "https://x.com/p?utm_term=a&ref=b".data =
      .ok (urlunsplit { scheme := "https".data, netloc := "x.com".data, path := "/p".data,
                        query := urlencode (cleanQuery "utm_term=a&ref=b".data),
                        fragment := [] }) ∧
     parse_qs (urlencode (cleanQuery "utm_term=a&ref=b".data)) =
      (parse_qs "utm_term=a&ref=b".data).filter (fun kv => !(bad_keys.contains kv.1))) :=
  ⟨rfl, C8_amended "https://x.com/p?utm_term=a&ref=b".data
    { scheme := "https".data, netloc := "x.com".data,
      path := "/p".data, query := "utm_term=a&ref=b".data, fragment := [] } rfl⟩

theorem dropWhile_eq_self_of_head (p : Char → Bool) (l : List Char)
    (h : ∀ c, l.head? = some c → p c = false) : l.dropWhile p = l := by
  cases l with
  | nil => rfl
  | cons c t =>
    rw [List.dropWhile_cons, h c rfl]
    simp

theorem dropWhile_head_false (p : Char → Bool) (l : List Char) (c : Char)
    (h : (l.dropWhile p).head? = some c) : p c = false := by
  rcases dropWhile_shape p l with h1 | ⟨d, ds, h1, h2⟩
  · rw [h1] at h
    cases h
  · rw [h1] at h
    simp only [List.head?_cons, Option.some.injEq] at h
    rw [← h]
    exact h2

theorem jsTrim_idem (s : String) : jsTrim (jsTrim s) = jsTrim s := by
  rw [jsTrim, jsTrim]
  have hdata : (String.mk ((((s.data.dropWhile isJsSpace).reverse).dropWhile
      isJsSpace).reverse)).data =
      (((s.data.dropWhile isJsSpace).reverse).dropWhile isJsSpace).reverse := rfl
  rw [hdata]
  have hA : (((s.data.dropWhile isJsSpace).reverse).dropWhile isJsSpace).reverse.dropWhile
      isJsSpace =
      (((s.data.dropWhile isJsSpace).reverse).dropWhile isJsSpace).reverse := by
    apply dropWhile_eq_self_of_head
    intro c hc
    have hsuf : ((s.data.dropWhile isJsSpace).reverse).dropWhile isJsSpace <:+
        (s.data.dropWhile isJsSpace).reverse := List.dropWhile_suffix _
    have hpre : (((s.data.dropWhile isJsSpace).reverse).dropWhile isJsSpace).reverse <+:
        s.data.dropWhile isJsSpace := by
      have h0 := List.reverse_prefix.mpr hsuf
      rw [List.reverse_reverse] at h0
      exact h0
    obtain ⟨rest, hrest⟩ := hpre
    apply dropWhile_head_false isJsSpace s.data c
    rw [← hrest]
    cases hxr : (((s.data.dropWhile isJsSpace).reverse).dropWhile isJsSpace).reverse with
    | nil =>
      rw [hxr] at hc
      cases hc
    | cons a t =>
      rw [hxr] at hc
      simp only [List.head?_cons, Option.some.injEq] at hc
      subst hc
      rfl
  rw [hA, List.reverse_reverse]
  have hB : (((s.data.dropWhile isJsSpace).reverse).dropWhile isJsSpace).dropWhile
      isJsSpace = ((s.data.dropWhile isJsSpace).reverse).dropWhile isJsSpace := by
    apply dropWhile_eq_self_of_head
    intro c hc
    exact dropWhile_head_false isJsSpace ((s.data.dropWhile isJsSpace).reverse) c hc
  rw [hB]

/-- C10: every deal the frontend hook surfaces from a parsed JSON array has a
non-empty, trimmed string title, a trimmed string summary, and a `published`
value that is either the original truthy value or `null`; links failing the
five-field type check are dropped by construction of `validLinkJS`. -/
theorem C10_confirmed (data : List JSValue) (item : FeedItemJS)
    (h : item ∈ validDeals data) :
    item.title ≠ "" ∧ jsTrim item.title = item.title ∧
    jsTrim item.summary = item.summary ∧
    (item.published = JSValue.null ∨ truthy item.published = true) := by
  obtain ⟨v, hv, hval⟩ := List.mem_filterMap.mp h
  simp only [validateAndTransformDeal] at hval
  split at hval
  · exact Option.noConfusion hval
  · split at hval
    · exact Option.noConfusion hval
    · split at hval
      · exact Option.noConfusion hval
      · rename_i hc1 hc2 hc3
        injection hval with hitem
        subst hitem
        refine ⟨?_, ?_, ?_, ?_⟩
        · intro he
          apply hc2
          simp only [Bool.or_eq_true, decide_eq_true_eq]
          exact Or.inr (show jsTrim (strVal (getField v kTitle)) = "" from he)
        · exact jsTrim_idem (strVal (getField v kTitle))
        · show jsTrim (if (truthy (getField v kSummary) && typeofString (getField v kSummary))
              = true then jsTrim (strVal (getField v kSummary)) else "") =
            (if (truthy (getField v kSummary) && typeofString (getField v kSummary))
              = true then jsTrim (strVal (getField v kSummary)) else "")
          by_cases hsum : (truthy (getField v kSummary) && typeofString (getField v kSummary))
              = true
          · rw [if_pos hsum]
            exact jsTrim_idem (strVal (getField v kSummary))
          · rw [if_neg hsum]
            rfl
        · by_cases hpub : truthy (getField v kPublished) = true
          · refine Or.inr ?_
            show truthy (if truthy (getField v kPublished) = true
              then getField v kPublished else JSValue.null) = true
            rw [if_pos hpub]
            exact hpub
          · refine Or.inl ?_
            show (if truthy (getField v kPublished) = true
              then getField v kPublished else JSValue.null) = JSValue.null
            rw [if_neg hpub]

/-- C10 witness: the theorem applied to a concrete valid deal object. -/
theorem C10_witness :
    ({ title := "Deal", link := "https://x.com", published := JSValue.null, summary := "", processed_links := [] } : FeedItemJS).title ≠ "" ∧
    jsTrim ({ title := "Deal", link := "https://x.com", published := JSValue.null, summary := "", processed_links := [] } : FeedItemJS).title = ({ title := "Deal", link := "https://x.com", published := JSValue.null, summary := "", processed_links := [] } : FeedItemJS).title ∧
    jsTrim ({ title := "Deal", link := "https://x.com", published := JSValue.null, summary := "", processed_links := [] } : FeedItemJS).summary = ({ title := "Deal", link := "https://x.com", published := JSValue.null, summary := "", processed_links := [] } : FeedItemJS).summary ∧
    (({ title := "Deal", link := "https://x.com", published := JSValue.null, summary := "", processed_links := [] } : FeedItemJS).published = JSValue.null ∨
     truthy ({ title := "Deal", link := "https://x.com", published := JSValue.null, summary := "", processed_links := [] } : FeedItemJS).published = true) :=
  C10_confirmed [.obj [(kTitle, .str "Deal"), (kLink, .str "https://x.com")]]
    { title := "Deal", link := "https://x.com", published := JSValue.null, summary := "", processed_links := [] }
    (List.Mem.head _)
